import Mathlib

/-!
# MidiFlow pattern algebra and graph evaluator: a verification development

This file gives a shallow embedding of the MidiFlow web demo's core engine
(`src/engine/pattern.ts`, `src/engine/modifiers/*.ts`, `src/engine/graphEvaluator.ts`)
and proves or refutes the frozen specification claims about it.

Modelling conventions:
* `fraction.js` rationals are embedded as `ℚ` (`Rat`): exact rational arithmetic.
  Division by zero throws in `fraction.js`; the single place the engine can divide
  by zero (`quantize` with grid 0) is modelled as an exceptional result at the
  modifier-execution boundary.
* JavaScript's stable `Array.prototype.sort` with comparator `(a, b) => a[0].compare(b[0])`
  is modelled by `List.insertionSort` on the non-strict key order, which is a stable
  sort and therefore produces exactly the same list.
* "`Pattern | null`" values are `Option Pattern`; a pattern's nullable `duration`
  field is `Option ℚ`.  The `bounds` cache, `id` and `name` fields are UI-side
  derived data not touched by any claim and are omitted from the record.
* The recursive evaluator and the graph traversals are embedded with an explicit
  fuel parameter; `none` at the outer `Option` layer means the fuel ran out
  (the source has no termination protection on cyclic graphs).
-/

namespace MidiFlow

/-- A MIDI note, from `src/types/midi.ts`: duration (rational), pitch (`note`) and
velocity (JS numbers, embedded as integers). -/
structure Note where
  duration : ℚ
  note : ℤ
  velocity : ℤ
deriving DecidableEq

/-- A pattern, from `src/types/midi.ts`: `[startTime, note]` tuples plus a nullable
explicit duration (`null` = auto-calculate from notes). -/
structure Pattern where
  notes : List (ℚ × Note)
  duration : Option ℚ
deriving DecidableEq

/-- `calculateDuration` from `src/engine/pattern.ts`: largest note end time, else 0. -/
def calculateDuration (notes : List (ℚ × Note)) : ℚ :=
  notes.foldl
    (fun maxEndTime sn =>
      if maxEndTime < sn.1 + sn.2.duration then sn.1 + sn.2.duration else maxEndTime)
    0

/-- The effective-duration rule: `pattern.duration ?? calculateDuration(pattern.notes)`. -/
def effectiveDuration (p : Pattern) : ℚ :=
  p.duration.getD (calculateDuration p.notes)

/-- `createPattern()` from `src/engine/pattern.ts` called with no arguments:
empty notes, `duration: null`. -/
def createPattern : Pattern :=
  { notes := [], duration := none }

/-- `createPatternWithBounds` from `src/engine/pattern.ts` (the `bounds` cache is
derived data and omitted here). -/
def createPatternWithBounds (notes : List (ℚ × Note)) (duration : Option ℚ) : Pattern :=
  { notes := notes, duration := duration }

/-- The key order used by every `notes.sort((a, b) => a[0].compare(b[0]))` call. -/
def startLE (a b : ℚ × Note) : Prop := a.1 ≤ b.1

instance : DecidableRel startLE := fun a b => inferInstanceAs (Decidable (a.1 ≤ b.1))

instance : IsTotal (ℚ × Note) startLE := ⟨fun a b => le_total a.1 b.1⟩

instance : IsTrans (ℚ × Note) startLE := ⟨fun _ _ _ h h' => le_trans h h'⟩

/-- JS `Array.prototype.sort` with the start-time comparator (a stable sort),
modelled by the stable `insertionSort`. -/
def sortByStart (notes : List (ℚ × Note)) : List (ℚ × Note) :=
  List.insertionSort startLE notes

/-- "Sorted ascending by startTime", the pattern invariant from the data model. -/
def SortedByStart (notes : List (ℚ × Note)) : Prop :=
  List.Sorted startLE notes

instance (notes : List (ℚ × Note)) : Decidable (SortedByStart notes) :=
  inferInstanceAs (Decidable (List.Pairwise _ _))

/-! ## The twelve modifiers -/

/-- The loop body of `concat` (`src/engine/modifiers/concat.ts`): pushes each
pattern's notes shifted by `currentTime`, then advances `currentTime` by the
pattern's effective duration. -/
def concatLoop (patterns : List Pattern) : List (ℚ × Note) × ℚ :=
  patterns.foldl
    (fun acc p =>
      (acc.1 ++ p.notes.map (fun sn => (acc.2 + sn.1, sn.2)),
       acc.2 + (p.duration.getD (calculateDuration p.notes))))
    ([], 0)

/-- `concat` from `src/engine/modifiers/concat.ts`. -/
def concat (patterns : List Pattern) : Pattern :=
  if patterns.isEmpty then createPattern
  else
    let r := concatLoop patterns
    createPatternWithBounds r.1 (some r.2)

/-- The loop body of `union` (`src/engine/modifiers/union.ts`): collects all notes
unshifted and takes the max effective duration. -/
def unionLoop (patterns : List Pattern) : List (ℚ × Note) × ℚ :=
  patterns.foldl
    (fun acc p =>
      (acc.1 ++ p.notes,
       if acc.2 < p.duration.getD (calculateDuration p.notes) then
         p.duration.getD (calculateDuration p.notes)
       else acc.2))
    ([], 0)

/-- `union` from `src/engine/modifiers/union.ts`. -/
def union (patterns : List Pattern) : Pattern :=
  if patterns.isEmpty then createPattern
  else
    let r := unionLoop patterns
    createPatternWithBounds (sortByStart r.1) (some r.2)

/-- `reverse` from `src/engine/modifiers/reverse.ts`. -/
def reverse (pattern : Pattern) : Pattern :=
  let duration := pattern.duration.getD (calculateDuration pattern.notes)
  let newNotes := pattern.notes.map (fun sn => (duration - sn.1 - sn.2.duration, sn.2))
  createPatternWithBounds (sortByStart newNotes) (some duration)

/-- JS `Math.max(0, Math.min(127, x))` on integers. -/
def clamp127 (x : ℤ) : ℤ := max 0 (min 127 x)

/-- `invert` from `src/engine/modifiers/invert.ts`. -/
def invert (pattern : Pattern) (pivot : ℤ) : Pattern :=
  let newNotes := pattern.notes.map
    (fun sn => (sn.1, { sn.2 with note := clamp127 (2 * pivot - sn.2.note) }))
  createPatternWithBounds newNotes
    (some (pattern.duration.getD (calculateDuration newNotes)))

/-- `transpose` from `src/engine/modifiers/transpose.ts`. -/
def transpose (pattern : Pattern) (semitones : ℤ) : Pattern :=
  let newNotes := pattern.notes.map
    (fun sn => (sn.1, { sn.2 with note := clamp127 (sn.2.note + semitones) }))
  createPatternWithBounds newNotes
    (some (pattern.duration.getD (calculateDuration newNotes)))

/-- `stretch` from the stretch modifier source: scales start times, note durations
and the (effective) pattern duration by `factor`. -/
def stretch (pattern : Pattern) (factor : ℚ) : Pattern :=
  let newNotes := pattern.notes.map
    (fun sn => (sn.1 * factor, { sn.2 with duration := sn.2.duration * factor }))
  let patternDuration := pattern.duration.getD (calculateDuration pattern.notes)
  createPatternWithBounds newNotes (some (patternDuration * factor))

/-- `scaleDuration` from `src/engine/modifiers/scaleDuration.ts`. -/
def scaleDuration (pattern : Pattern) (factor : ℚ) : Pattern :=
  let newNotes := pattern.notes.map
    (fun sn => (sn.1, { sn.2 with duration := sn.2.duration * factor }))
  createPatternWithBounds newNotes
    (some (pattern.duration.getD (calculateDuration newNotes)))

/-- `setDuration` from `src/engine/modifiers/setDuration.ts`. -/
def setDuration (pattern : Pattern) (duration : ℚ) : Pattern :=
  let newNotes := pattern.notes.map (fun sn => (sn.1, { sn.2 with duration := duration }))
  createPatternWithBounds newNotes
    (some (pattern.duration.getD (calculateDuration newNotes)))

/-- `scaleVelocity` from the scaleVelocity modifier source; `Math.round` rounds
half up towards `+∞`, which is Mathlib's `round` on `ℚ`. -/
def scaleVelocity (pattern : Pattern) (factor : ℚ) : Pattern :=
  let newNotes := pattern.notes.map
    (fun sn => (sn.1, { sn.2 with velocity := clamp127 (round ((sn.2.velocity : ℚ) * factor)) }))
  createPatternWithBounds newNotes
    (some (pattern.duration.getD (calculateDuration newNotes)))

/-- `setVelocity` from `src/engine/modifiers/setVelocity.ts`. -/
def setVelocity (pattern : Pattern) (velocity : ℤ) : Pattern :=
  let vel := clamp127 velocity
  let newNotes := pattern.notes.map (fun sn => (sn.1, { sn.2 with velocity := vel }))
  createPatternWithBounds newNotes
    (some (pattern.duration.getD (calculateDuration newNotes)))

/-- `quantize` from `src/engine/modifiers/quantize.ts`, for a nonzero grid
(`fraction.js` division by a zero grid throws; that case is modelled at the
modifier-execution boundary, see `quantizeExecute`). -/
def quantize (pattern : Pattern) (grid : ℚ) : Pattern :=
  let newNotes := pattern.notes.map
    (fun sn => (grid * (round (sn.1 / grid) : ℤ), sn.2))
  createPatternWithBounds (sortByStart newNotes)
    (some (pattern.duration.getD (calculateDuration (sortByStart newNotes))))

/-- The filtering loop of `trim` (the trim modifier source). -/
def trimLoop (duration : ℚ) (trimEnd : Bool) : List (ℚ × Note) → List (ℚ × Note)
  | [] => []
  | (startTime, note) :: rest =>
    if startTime < 0 ∨ duration ≤ startTime then trimLoop duration trimEnd rest
    else if trimEnd then
      if duration < startTime + note.duration then
        let newDuration := duration - startTime
        if 0 < newDuration then
          (startTime, { note with duration := newDuration }) :: trimLoop duration trimEnd rest
        else trimLoop duration trimEnd rest
      else (startTime, note) :: trimLoop duration trimEnd rest
    else (startTime, note) :: trimLoop duration trimEnd rest

/-- `trim` from the trim modifier source. -/
def trim (pattern : Pattern) (trimEnd : Bool) : Pattern :=
  let duration := pattern.duration.getD (calculateDuration pattern.notes)
  createPatternWithBounds (trimLoop duration trimEnd pattern.notes) (some duration)

/-- `view` from `src/engine/modifiers/view.ts`.  A `null` end time defaults to the
effective duration (a `Fraction` object is always truthy in JS, so only `null`
takes the default branch). -/
def view (pattern : Pattern) (startTime : ℚ) (endTime : Option ℚ) : Pattern :=
  let patternDuration := pattern.duration.getD (calculateDuration pattern.notes)
  let e := endTime.getD patternDuration
  let newNotes := pattern.notes.map (fun sn => (sn.1 - startTime, sn.2))
  createPatternWithBounds newNotes (some (e - startTime))

/-! ## Modifier registry (`src/engine/modifierRegistry.ts`, `src/engine/modifiers/<name>.ts`)

Each registered modifier carries its input shape and an `execute` function.
The node's dynamic `params` object is embedded as one record holding every
parameter key used by the twelve modifiers (in the source the keys live in a
single untyped object).  `execute` returns `Except Unit Pattern`: `.error ()`
models a thrown JS exception (the non-null assertion `keyword!.pattern` or
`positional!` on a missing input, or `fraction.js` division by a zero
quantize grid). -/

/-- The dynamic `params` object of a modifier node, typed per registry schema. -/
structure ModifierParams where
  pivot : ℤ := 60
  semitones : ℤ := 0
  factor : ℚ := 2
  duration : ℚ := 1 / 4
  grid : ℚ := 1 / 4
  velocity : ℤ := 80
  trimEnd : Bool := false
  startTime : ℚ := 0
  endTime : Option ℚ := none
deriving DecidableEq

/-- Input definitions (`src/types/patternflow.ts`), labels omitted (UI only). -/
inductive InputDefinition where
  | keyword (key : String) (required : Bool)
  | positional (minCount : Nat)
deriving DecidableEq

/-- Structured inputs passed to a modifier: named inputs (an association record)
and an optional ordered positional list. -/
structure ModifierInputs where
  keyword : List (String × Pattern) := []
  positional : Option (List Pattern) := none
deriving DecidableEq

/-- `inputs.keyword[key]` (record lookup; `undefined` when absent). -/
def lookupKeyword (inputs : ModifierInputs) (key : String) : Option Pattern :=
  (inputs.keyword.find? (fun kv => kv.1 = key)).map (·.2)

/-- A registry entry: name, input shape, and the `execute` closure. -/
structure ModifierDefinition where
  name : String
  inputs : List InputDefinition
  execute : ModifierInputs → ModifierParams → Except Unit Pattern

/-- `execute` of a unary keyword modifier: `({keyword}, params) => f(keyword!.pattern, ...)`;
a missing `pattern` input makes the non-null assertion throw. -/
def keywordExecute (f : Pattern → ModifierParams → Pattern) :
    ModifierInputs → ModifierParams → Except Unit Pattern :=
  fun inputs params =>
    match lookupKeyword inputs "pattern" with
    | some p => .ok (f p params)
    | none => .error ()

/-- `execute` of `quantize`: `fraction.js` `startTime.div(grid)` throws on a zero
grid, so a zero grid is an exceptional result whenever the pattern has a note. -/
def quantizeExecute : ModifierInputs → ModifierParams → Except Unit Pattern :=
  fun inputs params =>
    match lookupKeyword inputs "pattern" with
    | some p =>
      if params.grid = 0 ∧ p.notes ≠ [] then .error () else .ok (quantize p params.grid)
    | none => .error ()

/-- `execute` of a positional modifier: `({positional}) => f(...positional!)`. -/
def positionalExecute (f : List Pattern → Pattern) :
    ModifierInputs → ModifierParams → Except Unit Pattern :=
  fun inputs _ =>
    match inputs.positional with
    | some ps => .ok (f ps)
    | none => .error ()

/-- `getModifier` over the registry populated by the twelve modifier modules. -/
def getModifier : String → Option ModifierDefinition
  | "concat" => some
      { name := "concat", inputs := [.positional 2], execute := positionalExecute concat }
  | "union" => some
      { name := "union", inputs := [.positional 2], execute := positionalExecute union }
  | "reverse" => some
      { name := "reverse", inputs := [.keyword "pattern" true],
        execute := keywordExecute (fun p _ => reverse p) }
  | "invert" => some
      { name := "invert", inputs := [.keyword "pattern" true],
        execute := keywordExecute (fun p params => invert p params.pivot) }
  | "transpose" => some
      { name := "transpose", inputs := [.keyword "pattern" true],
        execute := keywordExecute (fun p params => transpose p params.semitones) }
  | "stretch" => some
      { name := "stretch", inputs := [.keyword "pattern" true],
        execute := keywordExecute (fun p params => stretch p params.factor) }
  | "scaleDuration" => some
      { name := "scaleDuration", inputs := [.keyword "pattern" true],
        execute := keywordExecute (fun p params => scaleDuration p params.factor) }
  | "setDuration" => some
      { name := "setDuration", inputs := [.keyword "pattern" true],
        execute := keywordExecute (fun p params => setDuration p params.duration) }
  | "scaleVelocity" => some
      { name := "scaleVelocity", inputs := [.keyword "pattern" true],
        execute := keywordExecute (fun p params => scaleVelocity p params.factor) }
  | "setVelocity" => some
      { name := "setVelocity", inputs := [.keyword "pattern" true],
        execute := keywordExecute (fun p params => setVelocity p params.velocity) }
  | "quantize" => some
      { name := "quantize", inputs := [.keyword "pattern" true], execute := quantizeExecute }
  | "trim" => some
      { name := "trim", inputs := [.keyword "pattern" true],
        execute := keywordExecute (fun p params => trim p params.trimEnd) }
  | "view" => some
      { name := "view", inputs := [.keyword "pattern" true],
        execute := keywordExecute (fun p params => view p params.startTime params.endTime) }
  | _ => none

/-! ## Graph model (`src/types/patternflow.ts`) -/

/-- A graph edge; the `id` field plays no role in evaluation and is omitted. -/
structure Edge where
  source : String
  target : String
  targetHandle : Option String
deriving DecidableEq

/-- Node payload: a raw pattern source or a modifier instance
(`positionalInputCount` is UI state the evaluator never reads). -/
inductive NodeData where
  | patternSource (pattern : Pattern)
  | modifier (modifierType : String) (params : ModifierParams)
deriving DecidableEq

/-- A graph node. -/
structure GraphNode where
  id : String
  data : NodeData
deriving DecidableEq

/-- A PatternFlow graph snapshot. -/
structure Graph where
  nodes : List GraphNode
  edges : List Edge
deriving DecidableEq

/-! ## Evaluation cache

`Map<string, Pattern | null>` is embedded as an association list; `set` prepends
(lookup returns the first hit), `delete` drops every binding of the key. -/

/-- The evaluator's cache: `nodeId -> Pattern | null`. -/
abbrev Cache := List (String × Option Pattern)

/-- `cache.get(nodeId)` combined with `cache.has(nodeId)`: `none` = no entry,
`some v` = an entry holding `v` (which may itself be a cached `null`). -/
def cacheLookup (c : Cache) (nodeId : String) : Option (Option Pattern) :=
  (c.find? (fun kv => kv.1 = nodeId)).map (·.2)

/-- `cache.set(nodeId, v)`. -/
def cacheSet (c : Cache) (nodeId : String) (v : Option Pattern) : Cache :=
  (nodeId, v) :: c

/-- `cache.delete(nodeId)`. -/
def cacheErase (c : Cache) (nodeId : String) : Cache :=
  c.filter (fun kv => ¬ kv.1 = nodeId)

/-! ## The evaluator (`src/engine/graphEvaluator.ts`)

`evaluate` is embedded with a fuel parameter: a result of `none` at the outer
`Option` means the fuel ran out, i.e. the unboundedly recursive source would
still be running.  A successful step returns the `Pattern | null` result, the
updated cache, and an instrumentation trace listing every node id whose
`evaluateNode` body actually ran (used to state "without recomputing"). -/

/-- Character-level prefix test (the meaning of JS `handle.startsWith(p)`;
Lean's built-in `String` search primitives are not kernel-reducible, so the
embedding works on the underlying character list). -/
def charsPrefix : List Char → List Char → Bool
  | [], _ => true
  | _ :: _, [] => false
  | x :: xs, y :: ys => x = y && charsPrefix xs ys

/-- `s.startsWith(pre)`. -/
def strStartsWith (s pre : String) : Bool := charsPrefix pre.data s.data

/-- Split a character list at every occurrence of `c` (JS `split(c)`). -/
def splitAux (c : Char) : List Char → List Char × List (List Char)
  | [] => ([], [])
  | x :: xs =>
    let r := splitAux c xs
    if x = c then ([], r.1 :: r.2) else (x :: r.1, r.2)

/-- JS `handle.split(c)`. -/
def splitOnChar (c : Char) (l : List Char) : List (List Char) :=
  (splitAux c l).1 :: (splitAux c l).2

/-- Parse a digit string (the behaviour of JS `parseInt` on the well-formed
`"pos-N"` handles; `NaN` cases are mapped to 0 as they never occur in a valid
graph). -/
def natOfDigitsAux : List Char → ℕ → Option ℕ
  | [], acc => some acc
  | ch :: rest, acc =>
    if '0' ≤ ch ∧ ch ≤ '9' then natOfDigitsAux rest (acc * 10 + (ch.toNat - '0'.toNat))
    else none

/-- Parse a nonempty digit string. -/
def natOfDigits : List Char → Option ℕ
  | [] => none
  | ch :: rest => natOfDigitsAux (ch :: rest) 0

/-- `parseInt(handle.split('-')[1])` for a `"pos-N"` handle. -/
def posIndex (handle : String) : ℕ :=
  (natOfDigits ((splitOnChar '-' handle.data).getD 1 [])).getD 0

/-- Sort key of a positional edge. -/
def edgePosIndex (e : Edge) : ℕ :=
  match e.targetHandle with
  | some h => posIndex h
  | none => 0

/-- Comparator of the positional-edge sort (`(aIdx, bIdx) => aIdx - bIdx`). -/
def edgeIdxLE (a b : Edge) : Prop := edgePosIndex a ≤ edgePosIndex b

instance : DecidableRel edgeIdxLE :=
  fun a b => inferInstanceAs (Decidable (edgePosIndex a ≤ edgePosIndex b))

instance : IsTotal Edge edgeIdxLE := ⟨fun a b => Nat.le_total (edgePosIndex a) (edgePosIndex b)⟩

instance : IsTrans Edge edgeIdxLE := ⟨fun _ _ _ h h' => Nat.le_trans h h'⟩

/-- Does an edge have a `"pos-N"` target handle? -/
def isPositionalEdge (e : Edge) : Bool :=
  match e.targetHandle with
  | some h => strStartsWith h "pos-"
  | none => false

/-- The positional edges of a node, sorted ascending by index (stable, as JS sort). -/
def positionalEdges (incomingEdges : List Edge) : List Edge :=
  List.insertionSort edgeIdxLE (incomingEdges.filter isPositionalEdge)

/-- One evaluation step result: `Pattern | null`, the cache, and the trace of
node ids whose bodies were computed. -/
abbrev EvalOut := Option Pattern × Cache × List String

/-- Recursively evaluate each positional edge's source in order (threading the
cache), collecting the raw (`Pattern | null`) results. -/
def evalSources (ev : Cache → String → Option EvalOut) :
    List Edge → Cache → Option (List (Option Pattern) × Cache × List String)
  | [], c => some ([], c, [])
  | e :: rest, c =>
    match ev c e.source with
    | none => none
    | some (r, c', tr) =>
      match evalSources ev rest c' with
      | none => none
      | some (rs, c'', tr') => some (r :: rs, c'', tr ++ tr')

/-- The input-assembly loop of `getModifierInputs`: walk the input definitions,
binding each keyword input's (non-null) upstream value and collecting the
positional sequence with null results dropped. -/
def inputsLoop (ev : Cache → String → Option EvalOut) (incomingEdges : List Edge) :
    List InputDefinition → ModifierInputs → Cache →
    Option (ModifierInputs × Cache × List String)
  | [], acc, c => some (acc, c, [])
  | .keyword key _ :: rest, acc, c =>
    match incomingEdges.find? (fun e => e.targetHandle = some key) with
    | none => inputsLoop ev incomingEdges rest acc c
    | some edge =>
      match ev c edge.source with
      | none => none
      | some (r, c', tr) =>
        let acc' :=
          match r with
          | some p => { acc with keyword := acc.keyword ++ [(key, p)] }
          | none => acc
        match inputsLoop ev incomingEdges rest acc' c' with
        | none => none
        | some (inp, c'', tr') => some (inp, c'', tr ++ tr')
  | .positional _ :: rest, acc, c =>
    match evalSources ev (positionalEdges incomingEdges) c with
    | none => none
    | some (rs, c', tr) =>
      match inputsLoop ev incomingEdges rest { acc with positional := some rs.reduceOption } c' with
      | none => none
      | some (inp, c'', tr') => some (inp, c'', tr ++ tr')

/-- The validation loop of `evaluateModifier`: every required keyword bound and
the positional sequence at least `minCount` long. -/
def validateInputs (defs : List InputDefinition) (inputs : ModifierInputs) : Bool :=
  defs.all fun d =>
    match d with
    | .keyword key required => !required || (lookupKeyword inputs key).isSome
    | .positional minCount =>
      minCount ≤ (match inputs.positional with | some l => l.length | none => 0)

/-- `applyModifier`: look the modifier up again and run it inside `try/catch`;
a thrown exception becomes a `null` result. -/
def applyModifier (modifierName : String) (params : ModifierParams)
    (inputs : ModifierInputs) : Option Pattern :=
  match getModifier modifierName with
  | none => none
  | some defn =>
    match defn.execute inputs params with
    | .ok p => some p
    | .error _ => none

/-- `evaluateModifier` body, parameterized by the recursive evaluator `ev`. -/
def evaluateModifierStep (ev : Cache → String → Option EvalOut) (g : Graph)
    (nodeId : String) (modifierType : String) (params : ModifierParams) (c : Cache) :
    Option EvalOut :=
  match getModifier modifierType with
  | none => some (none, c, [])
  | some defn =>
    let incomingEdges := g.edges.filter (fun e => e.target = nodeId)
    match inputsLoop ev incomingEdges defn.inputs {} c with
    | none => none
    | some (inputs, c', tr) =>
      if validateInputs defn.inputs inputs then
        some (applyModifier modifierType params inputs, c', tr)
      else some (none, c', tr)

/-- `evaluateNode` body, parameterized by the recursive evaluator. -/
def evaluateNodeStep (ev : Cache → String → Option EvalOut) (g : Graph)
    (node : GraphNode) (c : Cache) : Option EvalOut :=
  match node.data with
  | .patternSource pattern => some (some pattern, c, [])
  | .modifier modifierType params => evaluateModifierStep ev g node.id modifierType params c

/-- One unfolding of `evaluate`: unknown node → `null`; cache hit → cached value;
otherwise compute the node and store the result (value or `null`) before returning. -/
def evaluateStep (ev : Cache → String → Option EvalOut) (g : Graph) (c : Cache)
    (nodeId : String) : Option EvalOut :=
  match g.nodes.find? (fun n => n.id = nodeId) with
  | none => some (none, c, [])
  | some node =>
    match cacheLookup c nodeId with
    | some v => some (v, c, [])
    | none =>
      match evaluateNodeStep ev g node c with
      | none => none
      | some (pattern, c', tr) => some (pattern, cacheSet c' nodeId pattern, nodeId :: tr)

/-- `GraphEvaluator.evaluate`, fuel-indexed. -/
def evaluate : ℕ → Graph → Cache → String → Option EvalOut
  | 0, _, _, _ => none
  | fuel + 1, g, c, nodeId => evaluateStep (evaluate fuel g) g c nodeId

/-! ## Cache invalidation (`invalidateNode` / `getDownstreamNodes`) -/

/-- The BFS loop of `getDownstreamNodes`, fuel-indexed (one fuel per iteration).
`downstream` is accumulated as a list; the source's `Set.add` makes membership,
not multiplicity, the meaningful content. -/
def downstreamLoop (edges : List Edge) :
    ℕ → List String → List String → List String → Option (List String)
  | 0, _, _, _ => none
  | _ + 1, [], _, downstream => some downstream
  | fuel + 1, current :: queue, visited, downstream =>
    if current ∈ visited then downstreamLoop edges fuel queue visited downstream
    else
      let visited' := current :: visited
      let step :=
        (edges.filter (fun e => e.source = current)).foldl
          (fun (acc : List String × List String) e =>
            if e.target ∈ visited' then acc
            else (acc.1 ++ [e.target], acc.2 ++ [e.target]))
          (downstream, queue)
      downstreamLoop edges fuel step.2 visited' step.1

/-- `getDownstreamNodes(graph, nodeId)` (BFS over outgoing edges). -/
def getDownstreamNodes (fuel : ℕ) (g : Graph) (nodeId : String) : Option (List String) :=
  downstreamLoop g.edges fuel [nodeId] [] []

/-- `invalidateNode(graph, nodeId)`: evict the node's entry, then every
transitively-downstream entry. -/
def invalidateNode (fuel : ℕ) (g : Graph) (c : Cache) (nodeId : String) : Option Cache :=
  match getDownstreamNodes fuel g nodeId with
  | none => none
  | some downstream => some (downstream.foldl cacheErase (cacheErase c nodeId))

/-! ## Cycle detection (`detectCycles`)

The recursive `dfs` closure is embedded with fuel; `visited` and the explicit
`recursionStack` are threaded (the source shares them through the closure), and
the `path` parameter is the copied array the source passes down.  A found cycle
is returned directly instead of being pushed onto the shared `cycles` array
(the source pushes exactly once and then unwinds). -/

/-- `path.slice(path.indexOf(target))` followed by pushing `target` again.  In
every reachable state `target` is on the recursion stack and hence in `path`
(proved below), which is the case this mirrors. -/
def cycleSlice (path : List String) (target : String) : List String :=
  path.drop (path.indexOf target) ++ [target]

/-- The edge loop inside `dfs`: `rec` is the recursive call at one fuel less. -/
def dfsEdges
    (rec : String → List String → List String → List String →
      Option (Option (List String) × List String × List String))
    (path : List String) :
    List Edge → List String → List String →
    Option (Option (List String) × List String × List String)
  | [], visited, stack => some (none, visited, stack)
  | e :: rest, visited, stack =>
    if e.target ∈ visited then
      if e.target ∈ stack then
        some (some (cycleSlice path e.target), visited, stack)
      else dfsEdges rec path rest visited stack
    else
      match rec e.target path visited stack with
      | none => none
      | some (some cyc, v', s') => some (some cyc, v', s')
      | some (none, v', s') => dfsEdges rec path rest v' s'

/-- The recursive `dfs` of `detectCycles`: mark visited and on-stack, append to
the path, walk the outgoing edges, and pop the stack when returning `false`. -/
def dfs : ℕ → Graph → String → List String → List String → List String →
    Option (Option (List String) × List String × List String)
  | 0, _, _, _, _, _ => none
  | fuel + 1, g, nodeId, path, visited, stack =>
    match dfsEdges (dfs fuel g) (path ++ [nodeId])
        (g.edges.filter (fun e => e.source = nodeId)) (nodeId :: visited) (nodeId :: stack) with
    | none => none
    | some (some cyc, v', s') => some (some cyc, v', s')
    | some (none, v', s') => some (none, v', s'.erase nodeId)

/-- The root loop of `detectCycles` over `graph.nodes`. -/
def detectLoop (g : Graph) (fuel : ℕ) :
    List GraphNode → List String → List String → Option (Option (List String))
  | [], _, _ => some none
  | n :: rest, visited, stack =>
    if n.id ∈ visited then detectLoop g fuel rest visited stack
    else
      match dfs fuel g n.id [] visited stack with
      | none => none
      | some (some cyc, _, _) => some (some cyc)
      | some (none, v', s') => detectLoop g fuel rest v' s'

/-- Fuel sufficient for every `dfs` run on `g` (recursion depth is bounded by
the number of distinct edge targets; proved below). -/
def dfsFuel (g : Graph) : ℕ := g.edges.length + 1

/-- `detectCycles(graph)`: `some none` = the source's `null` (acyclic), `some
(some cycle)` = a returned witness path, `none` = fuel exhausted (shown
impossible for `dfsFuel`). -/
def detectCycles (g : Graph) : Option (Option (List String)) :=
  detectLoop g (dfsFuel g) g.nodes [] []

/-! ## A cache-free reference evaluator

`evalPure` is `evaluate` with the cache stripped out.  It is not part of the
source; it is the specification device used to prove that the memoizing
`evaluate` computes cache-independent values (needed for the claims comparing
evaluations across graphs and cache states). -/

/-- Cache-free counterpart of `evalSources`. -/
def pureSources (ev : String → Option (Option Pattern)) :
    List Edge → Option (List (Option Pattern))
  | [] => some []
  | e :: rest =>
    match ev e.source with
    | none => none
    | some r =>
      match pureSources ev rest with
      | none => none
      | some rs => some (r :: rs)

/-- Cache-free counterpart of `inputsLoop`. -/
def pureInputsLoop (ev : String → Option (Option Pattern)) (incomingEdges : List Edge) :
    List InputDefinition → ModifierInputs → Option ModifierInputs
  | [], acc => some acc
  | .keyword key _ :: rest, acc =>
    match incomingEdges.find? (fun e => e.targetHandle = some key) with
    | none => pureInputsLoop ev incomingEdges rest acc
    | some edge =>
      match ev edge.source with
      | none => none
      | some r =>
        let acc' :=
          match r with
          | some p => { acc with keyword := acc.keyword ++ [(key, p)] }
          | none => acc
        pureInputsLoop ev incomingEdges rest acc'
  | .positional _ :: rest, acc =>
    match pureSources ev (positionalEdges incomingEdges) with
    | none => none
    | some rs =>
      pureInputsLoop ev incomingEdges rest { acc with positional := some rs.reduceOption }

/-- Cache-free counterpart of `evaluateStep`. -/
def evalPureStep (ev : String → Option (Option Pattern)) (g : Graph) (nodeId : String) :
    Option (Option Pattern) :=
  match g.nodes.find? (fun n => n.id = nodeId) with
  | none => some none
  | some node =>
    match node.data with
    | .patternSource pattern => some (some pattern)
    | .modifier modifierType params =>
      match getModifier modifierType with
      | none => some none
      | some defn =>
        match pureInputsLoop ev (g.edges.filter (fun e => e.target = nodeId)) defn.inputs {} with
        | none => none
        | some inputs =>
          if validateInputs defn.inputs inputs then
            some (applyModifier modifierType params inputs)
          else some none

/-- The cache-free evaluator. -/
def evalPure : ℕ → Graph → String → Option (Option Pattern)
  | 0, _, _ => none
  | fuel + 1, g, nodeId => evalPureStep (evalPure fuel g) g nodeId

/-! # Theorems

## C1: the `concat` laws -/

/-- The claim's description of `concat`'s output notes: pattern `k`'s notes,
each offset by the cumulative effective duration of patterns `0..k-1`,
concatenated in per-source order. -/
def concatClaimNotes (ps : List Pattern) : List (ℚ × Note) :=
  (ps.enum.map (fun kp =>
    kp.2.notes.map (fun sn =>
      (((ps.take kp.1).map effectiveDuration).sum + sn.1, sn.2)))).flatten

theorem effectiveDuration_def (p : Pattern) :
    effectiveDuration p = p.duration.getD (calculateDuration p.notes) := rfl

theorem shift_shift (c d : ℚ) (l : List (ℚ × Note)) :
    (l.map (fun sn => (d + sn.1, sn.2))).map (fun sn => (c + sn.1, sn.2)) =
      l.map (fun sn => (c + d + sn.1, sn.2)) := by
  induction l with
  | nil => rfl
  | cons x l ih => simp only [List.map_cons, ih, add_assoc]

theorem shift_zero (l : List (ℚ × Note)) :
    l.map (fun sn => ((0 : ℚ) + sn.1, sn.2)) = l := by
  induction l with
  | nil => rfl
  | cons x l ih => simp [ih]

theorem concatClaimNotes_nil : concatClaimNotes [] = [] := rfl

theorem concatClaimNotes_cons (p : Pattern) (ps : List Pattern) :
    concatClaimNotes (p :: ps) =
      p.notes.map (fun sn => ((0 : ℚ) + sn.1, sn.2)) ++
        (concatClaimNotes ps).map (fun sn => (effectiveDuration p + sn.1, sn.2)) := by
  unfold concatClaimNotes
  rw [List.enum_cons, ← List.map_fst_add_enum_eq_enumFrom]
  simp only [List.map_cons, List.flatten_cons, List.map_map, List.map_flatten,
    List.take_zero, List.map_nil, List.sum_nil]
  congr 1
  apply congrArg List.flatten
  apply List.map_congr_left
  intro kp _
  simp only [Function.comp_apply, Prod.map_apply, id_eq, List.map_map, shift_shift]
  apply List.map_congr_left
  intro sn _
  simp [List.take_succ_cons, add_assoc]

theorem concatLoop_eq (ps : List Pattern) :
    ∀ (acc : List (ℚ × Note)) (t : ℚ),
      ps.foldl
        (fun acc p =>
          (acc.1 ++ p.notes.map (fun sn => (acc.2 + sn.1, sn.2)),
           acc.2 + (p.duration.getD (calculateDuration p.notes))))
        (acc, t) =
      (acc ++ (concatClaimNotes ps).map (fun sn => (t + sn.1, sn.2)),
       t + (ps.map effectiveDuration).sum) := by
  induction ps with
  | nil => intro acc t; simp [concatClaimNotes_nil]
  | cons p ps ih =>
    intro acc t
    rw [List.foldl_cons, ih]
    simp only [concatClaimNotes_cons, List.map_append, shift_shift, shift_zero,
      List.append_assoc, List.map_cons, List.sum_cons, ← effectiveDuration_def, add_assoc]

theorem concatLoop_spec (ps : List Pattern) :
    concatLoop ps = (concatClaimNotes ps, (ps.map effectiveDuration).sum) := by
  unfold concatLoop
  rw [concatLoop_eq]
  simp [shift_zero]

theorem concat_notes_eq (ps : List Pattern) : (concat ps).notes = concatClaimNotes ps := by
  cases ps with
  | nil => rfl
  | cons p ps =>
    simp [concat, concatLoop_spec, createPatternWithBounds]

theorem concat_effectiveDuration (ps : List Pattern) :
    effectiveDuration (concat ps) = (ps.map effectiveDuration).sum := by
  cases ps with
  | nil => rfl
  | cons p ps =>
    simp [concat, concatLoop_spec, createPatternWithBounds, effectiveDuration]

/-- C1: `concat` offsets pattern `k`'s notes by the cumulative effective duration
of patterns `0..k-1` and concatenates the shifted lists in per-source order with
no re-sort (`concatClaimNotes`); the output's effective duration is the sum of
the inputs' effective durations; in particular binary concatenation is additive
and shifts every note of `B` by exactly `effectiveDuration A`. -/
theorem concat_claim (ps : List Pattern) :
    (concat ps).notes = concatClaimNotes ps ∧
    effectiveDuration (concat ps) = (ps.map effectiveDuration).sum ∧
    ∀ A B : Pattern,
      effectiveDuration (concat [A, B]) = effectiveDuration A + effectiveDuration B ∧
      (concat [A, B]).notes =
        A.notes ++ B.notes.map (fun sn => (effectiveDuration A + sn.1, sn.2)) := by
  refine ⟨concat_notes_eq ps, concat_effectiveDuration ps, fun A B => ⟨?_, ?_⟩⟩
  · rw [concat_effectiveDuration]
    simp
  · rw [concat_notes_eq]
    simp [concatClaimNotes_cons, concatClaimNotes_nil, shift_zero]

/-! ## C8: the `trim` law -/

/-- The claim's description of `trim`'s kept notes: drop notes starting outside
`[0, duration)`; with `trimEnd`, clip an overhanging kept note to
`duration - start` (dropping it if that is `≤ 0`); otherwise keep notes
unmodified. -/
def trimClaimNotes (duration : ℚ) (trimEnd : Bool) (notes : List (ℚ × Note)) :
    List (ℚ × Note) :=
  (notes.filter (fun sn => 0 ≤ sn.1 ∧ sn.1 < duration)).filterMap (fun sn =>
    if trimEnd ∧ duration < sn.1 + sn.2.duration then
      if duration - sn.1 ≤ 0 then none
      else some (sn.1, { sn.2 with duration := duration - sn.1 })
    else some sn)

theorem trimClaimNotes_cons_dropped {duration s : ℚ} {n : Note} (trimEnd : Bool)
    (rest : List (ℚ × Note)) (h : ¬ (0 ≤ s ∧ s < duration)) :
    trimClaimNotes duration trimEnd ((s, n) :: rest) = trimClaimNotes duration trimEnd rest := by
  unfold trimClaimNotes
  rw [List.filter_cons]
  simp [h]

theorem trimClaimNotes_cons_kept {duration s : ℚ} {n : Note} (trimEnd : Bool)
    (rest : List (ℚ × Note)) (h : 0 ≤ s ∧ s < duration) :
    trimClaimNotes duration trimEnd ((s, n) :: rest) =
      (if trimEnd ∧ duration < s + n.duration then
        if duration - s ≤ 0 then trimClaimNotes duration trimEnd rest
        else (s, { n with duration := duration - s }) :: trimClaimNotes duration trimEnd rest
      else (s, n) :: trimClaimNotes duration trimEnd rest) := by
  unfold trimClaimNotes
  rw [List.filter_cons]
  simp only [h.1, h.2, and_self, decide_eq_true_eq, if_pos, List.filterMap_cons]
  by_cases hc : trimEnd = true ∧ duration < s + n.duration
  · by_cases hd : duration - s ≤ 0
    · simp [hc, hd]
    · simp [hc, hd]
  · simp [hc]

theorem trimLoop_eq_claim (duration : ℚ) (trimEnd : Bool) (notes : List (ℚ × Note)) :
    trimLoop duration trimEnd notes = trimClaimNotes duration trimEnd notes := by
  induction notes with
  | nil => rfl
  | cons sn rest ih =>
    obtain ⟨s, n⟩ := sn
    by_cases hout : s < 0 ∨ duration ≤ s
    · have hnot : ¬ (0 ≤ s ∧ s < duration) := by
        rcases hout with h | h
        · exact fun hc => absurd hc.1 (not_le.mpr h)
        · exact fun hc => absurd hc.2 (not_lt.mpr h)
      rw [trimClaimNotes_cons_dropped trimEnd rest hnot]
      simp only [trimLoop, if_pos hout]
      exact ih
    · have hin : 0 ≤ s ∧ s < duration := by
        push_neg at hout
        exact ⟨hout.1, hout.2⟩
      have hout' : ¬ (s < 0 ∨ duration ≤ s) := by
        push_neg
        exact ⟨hin.1, hin.2⟩
      rw [trimClaimNotes_cons_kept trimEnd rest hin]
      simp only [trimLoop, if_neg hout']
      cases trimEnd with
      | false => simp [ih]
      | true =>
        by_cases hover : duration < s + n.duration
        · have h0 : ¬ duration - s ≤ 0 := by
            rw [not_le]
            exact sub_pos.mpr hin.2
          have h0' : 0 < duration - s := sub_pos.mpr hin.2
          simp [hover, h0, h0', ih]
        · simp [hover, ih]

/-- C8: `trim` keeps exactly the notes starting in `[0, effective duration)`,
clipping overhangs to `duration - start` when `trimEnd` (dropping non-positive
clips), keeping them unmodified otherwise; the output duration is the input's
effective duration. -/
theorem trim_claim (p : Pattern) (trimEnd : Bool) :
    (trim p trimEnd).notes = trimClaimNotes (effectiveDuration p) trimEnd p.notes ∧
    (trim p trimEnd).duration = some (effectiveDuration p) := by
  constructor
  · simpa [trim, createPatternWithBounds, effectiveDuration] using
      trimLoop_eq_claim (effectiveDuration p) trimEnd p.notes
  · rfl

/-! ## C10: non-null output durations -/

/-- C10 counterexample: `concat` invoked on an empty pattern list (every input
pattern's duration field is then vacuously `null`) returns `createPattern()`,
whose `duration` field is `null`. -/
theorem concat_nil_duration_null : (concat []).duration = none := rfl

/-- C10, amended: every one of the twelve modifier functions materializes a
non-null `duration` field, for arbitrary (even all-`null`-duration) inputs —
except that `concat` and `union` need at least one input pattern (on the empty
list they return `createPattern()`, whose duration is `null`). -/
theorem modifiers_duration_nonnull (p : Pattern) (ps : List Pattern) (hps : ps ≠ [])
    (pivot semitones velocity : ℤ) (factor dur grid vstart : ℚ) (b : Bool)
    (e : Option ℚ) :
    (concat ps).duration.isSome ∧
    (union ps).duration.isSome ∧
    (reverse p).duration.isSome ∧
    (invert p pivot).duration.isSome ∧
    (transpose p semitones).duration.isSome ∧
    (stretch p factor).duration.isSome ∧
    (scaleDuration p factor).duration.isSome ∧
    (setDuration p dur).duration.isSome ∧
    (scaleVelocity p factor).duration.isSome ∧
    (setVelocity p velocity).duration.isSome ∧
    (quantize p grid).duration.isSome ∧
    (trim p b).duration.isSome ∧
    (view p vstart e).duration.isSome := by
  have hemp : ps.isEmpty = false := by
    cases ps with
    | nil => exact absurd rfl hps
    | cons q qs => rfl
  refine ⟨?_, ?_, rfl, rfl, rfl, rfl, rfl, rfl, rfl, rfl, rfl, rfl, rfl⟩
  · simp [concat, hemp, createPatternWithBounds]
  · simp [union, hemp, createPatternWithBounds]

/-- Closed witness for the amended C10 at concrete inputs. -/
theorem modifiers_duration_nonnull_witness :
    (concat [createPattern]).duration.isSome ∧
    (union [createPattern]).duration.isSome ∧
    (reverse createPattern).duration.isSome ∧
    (invert createPattern 60).duration.isSome ∧
    (transpose createPattern 0).duration.isSome ∧
    (stretch createPattern 2).duration.isSome ∧
    (scaleDuration createPattern 2).duration.isSome ∧
    (setDuration createPattern (1 / 4)).duration.isSome ∧
    (scaleVelocity createPattern 1).duration.isSome ∧
    (setVelocity createPattern 80).duration.isSome ∧
    (quantize createPattern (1 / 4)).duration.isSome ∧
    (trim createPattern false).duration.isSome ∧
    (view createPattern 0 none).duration.isSome :=
  modifiers_duration_nonnull createPattern [createPattern] (by simp) 60 0 80 2 (1 / 4)
    (1 / 4) 0 false none

/-! ## C7: `reverse` as an involution -/

/-- The strict start-time order (used to identify sorted permutations). -/
def startLT (a b : ℚ × Note) : Prop := a.1 < b.1

instance : IsAntisymm (ℚ × Note) startLT :=
  ⟨fun a _ h h' => absurd (lt_trans h h') (lt_irrefl a.1)⟩

theorem sorted_of_sorted_nodup_fst {l : List (ℚ × Note)}
    (hs : List.Sorted startLE l) (hn : (l.map Prod.fst).Nodup) :
    List.Sorted startLT l := by
  have hne : l.Pairwise (fun a b : ℚ × Note => a.1 ≠ b.1) :=
    (List.pairwise_map.mp hn)
  exact (hs.and hne).imp (fun h => lt_of_le_of_ne h.1 h.2)

theorem sortByStart_perm (l : List (ℚ × Note)) : List.Perm (sortByStart l) l :=
  List.perm_insertionSort startLE l

theorem sortByStart_sorted (l : List (ℚ × Note)) : List.Sorted startLE (sortByStart l) :=
  List.sorted_insertionSort startLE l

/-- C7 counterexample: a pattern with an explicit duration whose (sorted) notes
share a start time is not recovered by a double reverse — the final stable
re-sort leaves the two simultaneous notes in swapped order. -/
theorem reverse_reverse_counterexample :
    reverse (reverse
        { notes := [(0, { duration := 1, note := 60, velocity := 64 }),
                    (0, { duration := 2, note := 62, velocity := 64 })],
          duration := some 4 }) ≠
      ({ notes := [(0, { duration := 1, note := 60, velocity := 64 }),
                   (0, { duration := 2, note := 62, velocity := 64 })],
         duration := some 4 } : Pattern) := by
  norm_num [reverse, sortByStart, createPatternWithBounds, List.insertionSort,
    List.orderedInsert, startLE, calculateDuration]

/-- C7, amended: for a pattern with an explicit duration whose notes are sorted
ascending with pairwise-distinct start times, `reverse` is an involution; and
unconditionally `reverse` maps each start to `duration - start - noteDuration`
(up to the re-sort), keeps the duration, and re-sorts ascending. -/
theorem reverse_reverse_claim (P : Pattern) (D : ℚ) (hD : P.duration = some D)
    (hsort : SortedByStart P.notes) (hfst : (P.notes.map Prod.fst).Nodup) :
    reverse (reverse P) = P ∧
    (reverse P).duration = P.duration ∧
    SortedByStart (reverse P).notes ∧
    List.Perm (reverse P).notes
      (P.notes.map (fun sn => (D - sn.1 - sn.2.duration, sn.2))) := by
  have hrev : reverse P =
      { notes := sortByStart (P.notes.map (fun sn => (D - sn.1 - sn.2.duration, sn.2))),
        duration := some D } := by
    simp [reverse, hD, createPatternWithBounds, sortByStart]
  have hperm1 : List.Perm (reverse P).notes
      (P.notes.map (fun sn => (D - sn.1 - sn.2.duration, sn.2))) := by
    rw [hrev]
    exact sortByStart_perm _
  have hrev2 : reverse (reverse P) =
      { notes := sortByStart ((reverse P).notes.map
          (fun sn => (D - sn.1 - sn.2.duration, sn.2))),
        duration := some D } := by
    rw [hrev]
    simp [reverse, createPatternWithBounds, sortByStart]
  have hmapmap : (P.notes.map (fun sn : ℚ × Note => (D - sn.1 - sn.2.duration, sn.2))).map
      (fun sn : ℚ × Note => (D - sn.1 - sn.2.duration, sn.2)) = P.notes := by
    rw [List.map_map]
    have hcomp : ∀ sn : ℚ × Note,
        ((fun sn : ℚ × Note => (D - sn.1 - sn.2.duration, sn.2)) ∘
          (fun sn : ℚ × Note => (D - sn.1 - sn.2.duration, sn.2))) sn = sn := by
      intro sn
      simp only [Function.comp_apply]
      have harith : D - (D - sn.1 - sn.2.duration) - sn.2.duration = sn.1 := by ring
      rw [harith]
    exact (List.map_congr_left (fun sn _ => hcomp sn)).trans (List.map_id _)
  have hperm2 : List.Perm (reverse (reverse P)).notes P.notes := by
    rw [hrev2]
    refine (sortByStart_perm _).trans ?_
    have hstep : List.Perm
        ((reverse P).notes.map (fun sn : ℚ × Note => (D - sn.1 - sn.2.duration, sn.2)))
        ((P.notes.map (fun sn : ℚ × Note => (D - sn.1 - sn.2.duration, sn.2))).map
          (fun sn : ℚ × Note => (D - sn.1 - sn.2.duration, sn.2))) := hperm1.map _
    rw [hmapmap] at hstep
    exact hstep
  have hsorted2LE : List.Sorted startLE (reverse (reverse P)).notes := by
    rw [hrev2]
    exact sortByStart_sorted _
  have hnodup2 : ((reverse (reverse P)).notes.map Prod.fst).Nodup :=
    ((hperm2.map Prod.fst).nodup_iff).mpr hfst
  have hsorted2 : List.Sorted startLT (reverse (reverse P)).notes :=
    sorted_of_sorted_nodup_fst hsorted2LE hnodup2
  have hsortedP : List.Sorted startLT P.notes :=
    sorted_of_sorted_nodup_fst hsort hfst
  have hnoteseq : (reverse (reverse P)).notes = P.notes :=
    List.eq_of_perm_of_sorted hperm2 hsorted2 hsortedP
  refine ⟨?_, ?_, ?_, hperm1⟩
  · have hdur2 : (reverse (reverse P)).duration = P.duration := by
      rw [hrev2, hD]
    cases hP : reverse (reverse P) with
    | mk notes2 dur2 =>
      rw [hP] at hnoteseq hdur2
      cases P with
      | mk notes dur =>
        simp only at hnoteseq hdur2
        rw [hnoteseq, hdur2]
  · rw [hrev, hD]
  · rw [hrev]
    exact sortByStart_sorted _

/-- Closed witness for the amended C7. -/
theorem reverse_reverse_claim_witness :
    reverse (reverse
        { notes := [(0, { duration := 1, note := 60, velocity := 64 }),
                    (1, { duration := 2, note := 62, velocity := 64 })],
          duration := some 4 }) =
      ({ notes := [(0, { duration := 1, note := 60, velocity := 64 }),
                   (1, { duration := 2, note := 62, velocity := 64 })],
         duration := some 4 } : Pattern) :=
  (reverse_reverse_claim _ 4 rfl (by decide) (by decide)).1

/-! ## C2: sortedness of modifier outputs -/

/-- C2 counterexample: `transpose` (a modifier other than `concat`) maps start
times unchanged, so on an input pattern whose notes are not sorted the output is
not sorted either — the claimed invariant does not hold for all input patterns. -/
theorem transpose_unsorted_counterexample :
    ¬ SortedByStart (transpose
        { notes := [(1, { duration := 1, note := 60, velocity := 64 }),
                    (0, { duration := 1, note := 60, velocity := 64 })],
          duration := some 2 } 0).notes := by
  decide

theorem sorted_map_of_mono {l : List (ℚ × Note)} (f : ℚ × Note → ℚ × Note)
    (hf : ∀ a b : ℚ × Note, a.1 ≤ b.1 → (f a).1 ≤ (f b).1) (h : SortedByStart l) :
    SortedByStart (l.map f) := by
  rw [SortedByStart, List.Sorted, List.pairwise_map]
  exact h.imp (fun {a b} hab => hf a b hab)

theorem trimClaim_entry_fst {duration : ℚ} {trimEnd : Bool} {sn x : ℚ × Note}
    (hx : x ∈ (if trimEnd ∧ duration < sn.1 + sn.2.duration then
      if duration - sn.1 ≤ 0 then none
      else some (sn.1, { sn.2 with duration := duration - sn.1 })
    else some sn)) : x.1 = sn.1 := by
  by_cases h1 : trimEnd ∧ duration < sn.1 + sn.2.duration
  · rw [if_pos h1] at hx
    by_cases h2 : duration - sn.1 ≤ 0
    · rw [if_pos h2] at hx
      simp at hx
    · rw [if_neg h2] at hx
      simp only [Option.mem_def, Option.some.injEq] at hx
      rw [← hx]
  · rw [if_neg h1] at hx
    simp only [Option.mem_def, Option.some.injEq] at hx
    rw [← hx]

/-- C2, amended: every modifier other than `concat` yields notes sorted
ascending by start time, provided each input pattern's notes are sorted
(irrelevant for `union`, `reverse` and `quantize`, which re-sort
unconditionally) and, for `stretch`, the factor is nonnegative (a negative
factor reverses the order of distinct start times). -/
theorem modifiers_sorted_claim (p : Pattern) (ps : List Pattern)
    (hp : SortedByStart p.notes) (pivot semitones velocity : ℤ)
    (factor dur grid vstart sfactor : ℚ) (hsf : 0 ≤ sfactor) (b : Bool) (e : Option ℚ) :
    SortedByStart (union ps).notes ∧
    SortedByStart (reverse p).notes ∧
    SortedByStart (invert p pivot).notes ∧
    SortedByStart (transpose p semitones).notes ∧
    SortedByStart (stretch p sfactor).notes ∧
    SortedByStart (scaleDuration p factor).notes ∧
    SortedByStart (setDuration p dur).notes ∧
    SortedByStart (scaleVelocity p factor).notes ∧
    SortedByStart (setVelocity p velocity).notes ∧
    SortedByStart (quantize p grid).notes ∧
    SortedByStart (trim p b).notes ∧
    SortedByStart (view p vstart e).notes := by
  refine ⟨?_, ?_, ?_, ?_, ?_, ?_, ?_, ?_, ?_, ?_, ?_, ?_⟩
  · by_cases hps : ps.isEmpty
    · simp [union, hps, createPattern, SortedByStart]
    · simp only [union, hps, Bool.false_eq_true, if_false, createPatternWithBounds]
      exact sortByStart_sorted _
  · exact sortByStart_sorted _
  · exact sorted_map_of_mono _ (fun a b hab => hab) hp
  · exact sorted_map_of_mono _ (fun a b hab => hab) hp
  · exact sorted_map_of_mono _
      (fun a b hab => mul_le_mul_of_nonneg_right hab hsf) hp
  · exact sorted_map_of_mono _ (fun a b hab => hab) hp
  · exact sorted_map_of_mono _ (fun a b hab => hab) hp
  · exact sorted_map_of_mono _ (fun a b hab => hab) hp
  · exact sorted_map_of_mono _ (fun a b hab => hab) hp
  · exact sortByStart_sorted _
  · show SortedByStart (trimLoop (effectiveDuration p) b p.notes)
    rw [trimLoop_eq_claim, trimClaimNotes, SortedByStart, List.Sorted,
      List.pairwise_filterMap]
    refine (hp.filter _).imp ?_
    intro a c hac x hx y hy
    have hxa : x.1 = a.1 := trimClaim_entry_fst hx
    have hyc : y.1 = c.1 := trimClaim_entry_fst hy
    show x.1 ≤ y.1
    rw [hxa, hyc]
    exact hac
  · exact sorted_map_of_mono _ (fun a b hab => sub_le_sub_right hab vstart) hp

/-- Closed witness for the amended C2 at concrete inputs. -/
theorem modifiers_sorted_claim_witness :
    SortedByStart (union []).notes ∧
    SortedByStart (reverse createPattern).notes ∧
    SortedByStart (invert createPattern 60).notes ∧
    SortedByStart (transpose createPattern 0).notes ∧
    SortedByStart (stretch createPattern 2).notes ∧
    SortedByStart (scaleDuration createPattern 2).notes ∧
    SortedByStart (setDuration createPattern (1 / 4)).notes ∧
    SortedByStart (scaleVelocity createPattern 1).notes ∧
    SortedByStart (setVelocity createPattern 80).notes ∧
    SortedByStart (quantize createPattern (1 / 4)).notes ∧
    SortedByStart (trim createPattern false).notes ∧
    SortedByStart (view createPattern 0 none).notes :=
  modifiers_sorted_claim createPattern [] (by decide) 60 0 80 2 (1 / 4) (1 / 4) 0 2
    (by norm_num) false none

/-! ## C3: caching behaviour of `evaluate` -/

theorem cacheLookup_set_self (c : Cache) (nodeId : String) (v : Option Pattern) :
    cacheLookup (cacheSet c nodeId v) nodeId = some v := by
  simp [cacheLookup, cacheSet]

/-- C3: for a node id present in the graph: a cache hit (including a cached
`null`) returns the cached value without touching the cache and without
computing any node's body (empty trace); and every successful evaluation
returns a cache that maps the node id to the returned result (the result is
stored before returning). -/
theorem evaluate_cache_claim (fuel : ℕ) (g : Graph) (c : Cache) (nodeId : String)
    (hnode : (g.nodes.find? (fun n => n.id = nodeId)).isSome) :
    (∀ v, cacheLookup c nodeId = some v →
      evaluate (fuel + 1) g c nodeId = some (v, c, [])) ∧
    (∀ r c' tr, evaluate (fuel + 1) g c nodeId = some (r, c', tr) →
      cacheLookup c' nodeId = some r) := by
  obtain ⟨node, hfind⟩ := Option.isSome_iff_exists.mp hnode
  constructor
  · intro v hv
    simp [evaluate, evaluateStep, hfind, hv]
  · intro r c' tr hev
    simp only [evaluate, evaluateStep, hfind] at hev
    cases hv : cacheLookup c nodeId with
    | some v =>
      rw [hv] at hev
      simp only [Option.some.injEq, Prod.mk.injEq] at hev
      rw [← hev.2.1, ← hev.1, hv]
    | none =>
      rw [hv] at hev
      cases hstep : evaluateNodeStep (evaluate fuel g) g node c with
      | none =>
        rw [hstep] at hev
        simp at hev
      | some out =>
        obtain ⟨pat, c1, tr1⟩ := out
        rw [hstep] at hev
        simp only [Option.some.injEq, Prod.mk.injEq] at hev
        rw [← hev.2.1, ← hev.1]
        exact cacheLookup_set_self c1 nodeId pat

/-- A one-node graph used by concrete evaluator witnesses. -/
def witnessPattern : Pattern :=
  { notes := [(0, { duration := 1, note := 60, velocity := 64 })], duration := some 1 }

/-- A single pattern-source node `A`. -/
def witnessGraphA : Graph :=
  { nodes := [{ id := "A", data := .patternSource witnessPattern }], edges := [] }

/-- Closed witness for C3: a cached `null` for `A` is returned as-is with no
recomputation, and a fresh evaluation of `A` stores its result in the cache. -/
theorem evaluate_cache_claim_witness :
    evaluate 1 witnessGraphA [("A", none)] "A" = some (none, [("A", none)], []) ∧
    cacheLookup [("A", some witnessPattern)] "A" = some (some witnessPattern) := by
  constructor
  · exact (evaluate_cache_claim 0 witnessGraphA [("A", none)] "A" (by decide)).1 none rfl
  · exact (evaluate_cache_claim 0 witnessGraphA [] "A" (by decide)).2 (some witnessPattern)
      [("A", some witnessPattern)] ["A"] (by decide)

/-! ## C4: `invalidateNode` evicts exactly the downstream cone -/

/-- One directed step along the graph's edges (`source → target`). -/
def edgeStep (edges : List Edge) (x y : String) : Prop :=
  ∃ e ∈ edges, e.source = x ∧ e.target = y

theorem pushLoop_spec (vis : List String) :
    ∀ (es : List Edge) (d q : List String),
      ∃ n : List String,
        es.foldl (fun (acc : List String × List String) e =>
            if e.target ∈ vis then acc else (acc.1 ++ [e.target], acc.2 ++ [e.target]))
          (d, q) = (d ++ n, q ++ n) ∧
        (∀ x ∈ n, (∃ e ∈ es, e.target = x) ∧ x ∉ vis) ∧
        (∀ e ∈ es, e.target ∉ vis → e.target ∈ n) := by
  intro es
  induction es with
  | nil =>
    intro d q
    exact ⟨[], by simp, by simp, by simp⟩
  | cons e es ih =>
    intro d q
    by_cases hv : e.target ∈ vis
    · obtain ⟨n, h1, h2, h3⟩ := ih d q
      refine ⟨n, ?_, ?_, ?_⟩
      · simpa [hv] using h1
      · intro x hx
        obtain ⟨⟨e', he', ht⟩, hnv⟩ := h2 x hx
        exact ⟨⟨e', List.mem_cons_of_mem _ he', ht⟩, hnv⟩
      · intro e' he' hnv
        rcases List.mem_cons.mp he' with rfl | he'
        · exact absurd hv hnv
        · exact h3 e' he' hnv
    · obtain ⟨n, h1, h2, h3⟩ := ih (d ++ [e.target]) (q ++ [e.target])
      refine ⟨e.target :: n, ?_, ?_, ?_⟩
      · simpa [hv, List.append_assoc] using h1
      · intro x hx
        rcases List.mem_cons.mp hx with rfl | hx
        · exact ⟨⟨e, List.mem_cons_self _ _, rfl⟩, hv⟩
        · obtain ⟨⟨e', he', ht⟩, hnv⟩ := h2 x hx
          exact ⟨⟨e', List.mem_cons_of_mem _ he', ht⟩, hnv⟩
      · intro e' he' hnv
        rcases List.mem_cons.mp he' with rfl | he'
        · exact List.mem_cons_self _ _
        · exact List.mem_cons_of_mem _ (h3 e' he' hnv)

theorem downstreamLoop_sound (edges : List Edge) (start : String) :
    ∀ (fuel : ℕ) (queue visited downstream out : List String),
      downstreamLoop edges fuel queue visited downstream = some out →
      (∀ x ∈ queue, x = start ∨ Relation.TransGen (edgeStep edges) start x) →
      (∀ x ∈ downstream, Relation.TransGen (edgeStep edges) start x) →
      ∀ x ∈ out, Relation.TransGen (edgeStep edges) start x := by
  intro fuel
  induction fuel with
  | zero => intro queue visited downstream out h; cases h
  | succ fuel ih =>
    intro queue visited downstream out h hq hd
    cases queue with
    | nil =>
      simp only [downstreamLoop, Option.some.injEq] at h
      subst h
      exact hd
    | cons current queue =>
      simp only [downstreamLoop] at h
      by_cases hcv : current ∈ visited
      · rw [if_pos hcv] at h
        exact ih queue visited downstream out h
          (fun x hx => hq x (List.mem_cons_of_mem _ hx)) hd
      · rw [if_neg hcv] at h
        obtain ⟨n, h1, h2, _h3⟩ := pushLoop_spec (current :: visited)
          (edges.filter (fun e => e.source = current)) downstream queue
        rw [h1] at h
        have hcur : current = start ∨ Relation.TransGen (edgeStep edges) start current :=
          hq current (List.mem_cons_self _ _)
        have hreach_n : ∀ x ∈ n, Relation.TransGen (edgeStep edges) start x := by
          intro x hx
          obtain ⟨⟨e, he, ht⟩, _⟩ := h2 x hx
          have hes : e.source = current := by
            have := List.of_mem_filter he
            simpa using this
          have hmem : e ∈ edges := List.mem_of_mem_filter he
          have hstep : edgeStep edges current x := ⟨e, hmem, hes, ht⟩
          rcases hcur with rfl | hcur
          · exact Relation.TransGen.single hstep
          · exact hcur.tail hstep
        refine ih (queue ++ n) (current :: visited) (downstream ++ n) out h ?_ ?_
        · intro x hx
          rcases List.mem_append.mp hx with hx | hx
          · exact hq x (List.mem_cons_of_mem _ hx)
          · exact Or.inr (hreach_n x hx)
        · intro x hx
          rcases List.mem_append.mp hx with hx | hx
          · exact hd x hx
          · exact hreach_n x hx

theorem downstreamLoop_complete (edges : List Edge) (start : String) :
    ∀ (fuel : ℕ) (queue visited downstream out : List String),
      downstreamLoop edges fuel queue visited downstream = some out →
      (∀ x ∈ visited, ∀ e ∈ edges, e.source = x → e.target ∈ visited ∨ e.target ∈ queue) →
      (∀ x ∈ queue, x = start ∨ x ∈ downstream) →
      (∀ x ∈ visited, x = start ∨ x ∈ downstream) →
      ∃ Vf : List String,
        (∀ x ∈ visited, x ∈ Vf) ∧ (∀ x ∈ queue, x ∈ Vf) ∧
        (∀ x ∈ Vf, ∀ e ∈ edges, e.source = x → e.target ∈ Vf) ∧
        (∀ x ∈ Vf, x = start ∨ x ∈ out) ∧
        (∀ x ∈ downstream, x ∈ out) := by
  intro fuel
  induction fuel with
  | zero => intro queue visited downstream out h; cases h
  | succ fuel ih =>
    intro queue visited downstream out h hvq hq hvd
    cases queue with
    | nil =>
      simp only [downstreamLoop, Option.some.injEq] at h
      subst h
      refine ⟨visited, fun x hx => hx, by simp, ?_, hvd, fun x hx => hx⟩
      intro x hx e he hs
      rcases hvq x hx e he hs with ht | ht
      · exact ht
      · cases ht
    | cons current queue =>
      simp only [downstreamLoop] at h
      by_cases hcv : current ∈ visited
      · rw [if_pos hcv] at h
        have hvq' : ∀ x ∈ visited, ∀ e ∈ edges, e.source = x →
            e.target ∈ visited ∨ e.target ∈ queue := by
          intro x hx e he hs
          rcases hvq x hx e he hs with ht | ht
          · exact Or.inl ht
          · rcases List.mem_cons.mp ht with rfl | ht
            · exact Or.inl hcv
            · exact Or.inr ht
        obtain ⟨Vf, hv1, hv2, hv3, hv4, hv5⟩ := ih queue visited downstream out h hvq'
          (fun x hx => hq x (List.mem_cons_of_mem _ hx)) hvd
        refine ⟨Vf, hv1, ?_, hv3, hv4, hv5⟩
        intro x hx
        rcases List.mem_cons.mp hx with rfl | hx
        · exact hv1 x hcv
        · exact hv2 x hx
      · rw [if_neg hcv] at h
        obtain ⟨n, h1, h2, h3⟩ := pushLoop_spec (current :: visited)
          (edges.filter (fun e => e.source = current)) downstream queue
        rw [h1] at h
        have hvq' : ∀ x ∈ current :: visited, ∀ e ∈ edges, e.source = x →
            e.target ∈ current :: visited ∨ e.target ∈ queue ++ n := by
          intro x hx e he hs
          rcases List.mem_cons.mp hx with rfl | hx
          · by_cases ht : e.target ∈ x :: visited
            · exact Or.inl ht
            · refine Or.inr (List.mem_append_right _ (h3 e ?_ ht))
              exact List.mem_filter.mpr ⟨he, by simp [hs]⟩
          · rcases hvq x hx e he hs with ht | ht
            · exact Or.inl (List.mem_cons_of_mem _ ht)
            · rcases List.mem_cons.mp ht with rfl | ht
              · exact Or.inl (List.mem_cons_self _ _)
              · exact Or.inr (List.mem_append_left _ ht)
        have hq' : ∀ x ∈ queue ++ n, x = start ∨ x ∈ downstream ++ n := by
          intro x hx
          rcases List.mem_append.mp hx with hx | hx
          · rcases hq x (List.mem_cons_of_mem _ hx) with h' | h'
            · exact Or.inl h'
            · exact Or.inr (List.mem_append_left _ h')
          · exact Or.inr (List.mem_append_right _ hx)
        have hvd' : ∀ x ∈ current :: visited, x = start ∨ x ∈ downstream ++ n := by
          intro x hx
          rcases List.mem_cons.mp hx with rfl | hx
          · rcases hq x (List.mem_cons_self _ _) with h' | h'
            · exact Or.inl h'
            · exact Or.inr (List.mem_append_left _ h')
          · rcases hvd x hx with h' | h'
            · exact Or.inl h'
            · exact Or.inr (List.mem_append_left _ h')
        obtain ⟨Vf, hv1, hv2, hv3, hv4, hv5⟩ :=
          ih (queue ++ n) (current :: visited) (downstream ++ n) out h hvq' hq' hvd'
        refine ⟨Vf, ?_, ?_, hv3, hv4, ?_⟩
        · exact fun x hx => hv1 x (List.mem_cons_of_mem _ hx)
        · intro x hx
          rcases List.mem_cons.mp hx with rfl | hx
          · exact hv1 x (List.mem_cons_self _ _)
          · exact hv2 x (List.mem_append_left _ hx)
        · exact fun x hx => hv5 x (List.mem_append_left _ hx)

theorem cacheLookup_cons (k : String) (v : Option Pattern) (c : Cache) (x : String) :
    cacheLookup ((k, v) :: c) x = if k = x then some v else cacheLookup c x := by
  by_cases h : k = x
  · simp [cacheLookup, List.find?_cons, h]
  · simp [cacheLookup, List.find?_cons, h]

theorem cacheErase_lookup (c : Cache) (nodeId x : String) :
    cacheLookup (cacheErase c nodeId) x = if x = nodeId then none else cacheLookup c x := by
  induction c with
  | nil => simp [cacheErase, cacheLookup]
  | cons kv c ih =>
    obtain ⟨k, v⟩ := kv
    by_cases hk : k = nodeId
    · have hfil : cacheErase ((k, v) :: c) nodeId = cacheErase c nodeId := by
        simp [cacheErase, List.filter_cons, hk]
      rw [hfil, ih]
      by_cases hx : x = nodeId
      · simp [hx]
      · have hkx : ¬ k = x := by
          rw [hk]
          exact fun h => hx h.symm
        rw [if_neg hx, if_neg hx, cacheLookup_cons, if_neg hkx]
    · have hfil : cacheErase ((k, v) :: c) nodeId = (k, v) :: cacheErase c nodeId := by
        simp [cacheErase, List.filter_cons, hk]
      rw [hfil, cacheLookup_cons, cacheLookup_cons]
      by_cases hkx : k = x
      · have hxnot : ¬ x = nodeId := fun h => hk (hkx.trans h)
        rw [if_pos hkx, if_neg hxnot, if_pos hkx]
      · rw [if_neg hkx, if_neg hkx, ih]

theorem foldlErase_lookup (ds : List String) :
    ∀ (c : Cache) (x : String),
      cacheLookup (ds.foldl cacheErase c) x =
        if x ∈ ds then none else cacheLookup c x := by
  induction ds with
  | nil => intro c x; simp
  | cons d ds ih =>
    intro c x
    rw [List.foldl_cons, ih]
    by_cases hx : x ∈ ds
    · simp [hx]
    · rw [if_neg hx, cacheErase_lookup]
      by_cases hxd : x = d
      · simp [hxd]
      · have : ¬ x ∈ d :: ds := by
          intro hmem
          rcases List.mem_cons.mp hmem with h | h
          · exact hxd h
          · exact hx h
        simp [hxd, this]

/-- C4: a completed `invalidateNode` evicts exactly the cache entry of `nodeId`
and of every node transitively downstream of it (reachable through one or more
`source → target` edges); every other node's entry is unchanged. -/
theorem invalidateNode_claim (g : Graph) (c : Cache) (nodeId : String) (fuel : ℕ)
    (c' : Cache) (hinv : invalidateNode fuel g c nodeId = some c') (x : String) :
    ((x = nodeId ∨ Relation.TransGen (edgeStep g.edges) nodeId x) →
      cacheLookup c' x = none) ∧
    (¬ (x = nodeId ∨ Relation.TransGen (edgeStep g.edges) nodeId x) →
      cacheLookup c' x = cacheLookup c x) := by
  unfold invalidateNode at hinv
  cases hds : getDownstreamNodes fuel g nodeId with
  | none => rw [hds] at hinv; cases hinv
  | some ds =>
    rw [hds] at hinv
    simp only [Option.some.injEq] at hinv
    subst hinv
    have hlook : ∀ y : String,
        cacheLookup (ds.foldl cacheErase (cacheErase c nodeId)) y =
          if y ∈ ds then none else if y = nodeId then none else cacheLookup c y := by
      intro y
      rw [foldlErase_lookup, cacheErase_lookup]
    have hsound : ∀ y ∈ ds, Relation.TransGen (edgeStep g.edges) nodeId y := by
      refine downstreamLoop_sound g.edges nodeId fuel [nodeId] [] [] ds hds ?_ ?_
      · intro y hy
        rcases List.mem_cons.mp hy with rfl | hy
        · exact Or.inl rfl
        · cases hy
      · intro y hy
        cases hy
    have hq0 : ∀ y ∈ [nodeId], y = nodeId ∨ y ∈ ([] : List String) := by
      intro y hy
      rcases List.mem_cons.mp hy with rfl | hy
      · exact Or.inl rfl
      · cases hy
    obtain ⟨Vf, _, hstart, hclosed, hmem, _⟩ :=
      downstreamLoop_complete g.edges nodeId fuel [nodeId] [] [] ds hds
        (fun y hy => by cases hy) hq0 (fun y hy => by cases hy)
    have hstart' : nodeId ∈ Vf := hstart nodeId (List.mem_cons_self _ _)
    have hreachVf : ∀ y, Relation.TransGen (edgeStep g.edges) nodeId y → y ∈ Vf := by
      intro y hy
      induction hy with
      | single h =>
        obtain ⟨e, he, hs, ht⟩ := h
        exact ht ▸ hclosed nodeId hstart' e he hs
      | tail _ h ihy =>
        obtain ⟨e, he, hs, ht⟩ := h
        exact ht ▸ hclosed _ ihy e he hs
    constructor
    · intro hx
      rw [hlook]
      rcases hx with rfl | hx
      · by_cases hmemds : x ∈ ds
        · rw [if_pos hmemds]
        · rw [if_neg hmemds, if_pos rfl]
      · rcases hmem x (hreachVf x hx) with rfl | hxds
        · by_cases hmemds : x ∈ ds
          · rw [if_pos hmemds]
          · rw [if_neg hmemds, if_pos rfl]
        · rw [if_pos hxds]
    · intro hx
      rw [hlook]
      have hxds : ¬ x ∈ ds := fun hmemds => hx (Or.inr (hsound x hmemds))
      have hxid : ¬ x = nodeId := fun h => hx (Or.inl h)
      rw [if_neg hxds, if_neg hxid]

/-- The chain graph `A → B → C` with an unrelated node `D`. -/
def witnessGraphChain : Graph :=
  { nodes := [{ id := "A", data := .patternSource witnessPattern },
              { id := "B", data := .modifier "reverse" {} },
              { id := "C", data := .modifier "reverse" {} },
              { id := "D", data := .patternSource witnessPattern }],
    edges := [{ source := "A", target := "B", targetHandle := some "pattern" },
              { source := "B", target := "C", targetHandle := some "pattern" }] }

/-- A cache holding entries for `A`, `B`, `C` and `D`. -/
def witnessCacheABCD : Cache := [("A", none), ("B", none), ("C", none), ("D", none)]

theorem witnessGraphChain_reach :
    ∀ y, Relation.TransGen (edgeStep witnessGraphChain.edges) "A" y →
      y = "B" ∨ y = "C" := by
  intro y hy
  induction hy with
  | single h =>
    obtain ⟨e, he, hs, ht⟩ := h
    simp only [witnessGraphChain, List.mem_cons, List.not_mem_nil, or_false] at he
    rcases he with rfl | rfl
    · exact Or.inl ht.symm
    · exact absurd hs (by decide)
  | tail _ h ihy =>
    obtain ⟨e, he, hs, ht⟩ := h
    simp only [witnessGraphChain, List.mem_cons, List.not_mem_nil, or_false] at he
    rcases he with rfl | rfl
    · rcases ihy with h' | h' <;> rw [← hs] at h' <;> simp at h'
    · exact Or.inr ht.symm

/-- Closed witness for C4: invalidating `A` on `A → B → C` (plus unrelated `D`)
evicts `B`'s entry and leaves `D`'s entry untouched. -/
theorem invalidateNode_claim_witness :
    cacheLookup [("D", (none : Option Pattern))] "B" = none ∧
    cacheLookup [("D", (none : Option Pattern))] "D" =
      cacheLookup witnessCacheABCD "D" := by
  have h := invalidateNode_claim witnessGraphChain witnessCacheABCD "A" 10
    [("D", none)] (by decide)
  constructor
  · refine (h "B").1 (Or.inr (Relation.TransGen.single ?_))
    exact ⟨{ source := "A", target := "B", targetHandle := some "pattern" },
      by simp [witnessGraphChain], rfl, rfl⟩
  · refine (h "D").2 ?_
    intro hD
    rcases hD with hD | hD
    · exact absurd hD (by decide)
    · rcases witnessGraphChain_reach "D" hD with h' | h' <;> exact absurd h' (by decide)

/-! ## Purity of the memoizing evaluator

`evalPure` is monotone in fuel and deterministic; `evaluate` started from a
cache whose entries agree with `evalPure` returns `evalPure`'s value and keeps
the cache in that state.  These lemmas let the claims compare evaluations
across cache states and graphs. -/

theorem pureSources_mono {ev₁ ev₂ : String → Option (Option Pattern)}
    (H : ∀ id r, ev₁ id = some r → ev₂ id = some r) :
    ∀ (es : List Edge) (rs : List (Option Pattern)),
      pureSources ev₁ es = some rs → pureSources ev₂ es = some rs := by
  intro es
  induction es with
  | nil => intro rs h; exact h
  | cons e es ih =>
    intro rs h
    simp only [pureSources] at h ⊢
    cases hev : ev₁ e.source with
    | none => simp [hev] at h
    | some r =>
      simp only [hev] at h
      simp only [H _ _ hev]
      cases hrest : pureSources ev₁ es with
      | none => simp [hrest] at h
      | some rs' =>
        simp only [hrest] at h
        simp only [ih _ hrest]
        exact h

theorem pureInputsLoop_mono {ev₁ ev₂ : String → Option (Option Pattern)}
    (H : ∀ id r, ev₁ id = some r → ev₂ id = some r) (incomingEdges : List Edge) :
    ∀ (defs : List InputDefinition) (acc inp : ModifierInputs),
      pureInputsLoop ev₁ incomingEdges defs acc = some inp →
      pureInputsLoop ev₂ incomingEdges defs acc = some inp := by
  intro defs
  induction defs with
  | nil => intro acc inp h; exact h
  | cons d defs ih =>
    intro acc inp h
    cases d with
    | keyword key required =>
      simp only [pureInputsLoop] at h ⊢
      cases hfind : incomingEdges.find? (fun e => e.targetHandle = some key) with
      | none =>
        simp only [hfind] at h ⊢
        exact ih _ _ h
      | some edge =>
        simp only [hfind] at h ⊢
        cases hev : ev₁ edge.source with
        | none => simp [hev] at h
        | some r =>
          simp only [hev] at h
          simp only [H _ _ hev]
          exact ih _ _ h
    | positional minCount =>
      simp only [pureInputsLoop] at h ⊢
      cases hsrc : pureSources ev₁ (positionalEdges incomingEdges) with
      | none => simp [hsrc] at h
      | some rs =>
        simp only [hsrc] at h
        simp only [pureSources_mono H _ _ hsrc]
        exact ih _ _ h

theorem evalPureStep_mono {ev₁ ev₂ : String → Option (Option Pattern)}
    (H : ∀ id r, ev₁ id = some r → ev₂ id = some r) (g : Graph) (nodeId : String)
    (r : Option Pattern) (h : evalPureStep ev₁ g nodeId = some r) :
    evalPureStep ev₂ g nodeId = some r := by
  simp only [evalPureStep] at h ⊢
  cases hfind : g.nodes.find? (fun n => n.id = nodeId) with
  | none =>
    simp only [hfind] at h ⊢
    exact h
  | some node =>
    simp only [hfind] at h ⊢
    cases hdata : node.data with
    | patternSource pattern =>
      simp only [hdata] at h ⊢
      exact h
    | modifier modifierType params =>
      simp only [hdata] at h ⊢
      cases hmod : getModifier modifierType with
      | none =>
        simp only [hmod] at h ⊢
        exact h
      | some defn =>
        simp only [hmod] at h ⊢
        cases hinp : pureInputsLoop ev₁ (g.edges.filter (fun e => e.target = nodeId))
            defn.inputs {} with
        | none => simp [hinp] at h
        | some inputs =>
          simp only [hinp] at h
          simp only [pureInputsLoop_mono H _ _ _ _ hinp]
          exact h

theorem evalPure_mono_succ :
    ∀ (fuel : ℕ) (g : Graph) (nodeId : String) (r : Option Pattern),
      evalPure fuel g nodeId = some r → evalPure (fuel + 1) g nodeId = some r := by
  intro fuel
  induction fuel with
  | zero => intro g nodeId r h; cases h
  | succ fuel ih =>
    intro g nodeId r h
    exact evalPureStep_mono (fun id r' h' => ih g id r' h') g nodeId r h

theorem evalPure_mono {f f' : ℕ} (hle : f ≤ f') (g : Graph) (nodeId : String)
    (r : Option Pattern) (h : evalPure f g nodeId = some r) :
    evalPure f' g nodeId = some r := by
  induction hle with
  | refl => exact h
  | step _ ih => exact evalPure_mono_succ _ g nodeId r ih

theorem evalPure_det {f f' : ℕ} {g : Graph} {nodeId : String} {r r' : Option Pattern}
    (h : evalPure f g nodeId = some r) (h' : evalPure f' g nodeId = some r') : r = r' := by
  have h1 := evalPure_mono (Nat.le_max_left f f') g nodeId r h
  have h2 := evalPure_mono (Nat.le_max_right f f') g nodeId r' h'
  rw [h1] at h2
  exact (Option.some.injEq _ _ ▸ h2)

/-- A cache is good when every entry agrees with the cache-free evaluator. -/
def GoodCache (g : Graph) (c : Cache) : Prop :=
  ∀ id v, cacheLookup c id = some v → ∃ f, evalPure f g id = some v

theorem goodCache_nil (g : Graph) : GoodCache g [] := by
  intro id v h
  simp [cacheLookup] at h

theorem goodCache_set {g : Graph} {c : Cache} (hc : GoodCache g c) {id : String}
    {v : Option Pattern} (h : ∃ f, evalPure f g id = some v) :
    GoodCache g (cacheSet c id v) := by
  intro x w hx
  rw [cacheSet, cacheLookup_cons] at hx
  by_cases hix : id = x
  · rw [if_pos hix] at hx
    obtain rfl : v = w := by injection hx
    exact hix ▸ h
  · rw [if_neg hix] at hx
    exact hc x w hx

theorem evalSources_sim {g : Graph} {ev : Cache → String → Option EvalOut}
    (H : ∀ c id r c' tr, GoodCache g c → ev c id = some (r, c', tr) →
      GoodCache g c' ∧ ∃ f, evalPure f g id = some r) :
    ∀ (es : List Edge) (c : Cache) (rs : List (Option Pattern)) (c' : Cache)
      (tr : List String), GoodCache g c → evalSources ev es c = some (rs, c', tr) →
      GoodCache g c' ∧ ∃ f, pureSources (evalPure f g) es = some rs := by
  intro es
  induction es with
  | nil =>
    intro c rs c' tr hc h
    simp only [evalSources, Option.some.injEq, Prod.mk.injEq] at h
    obtain ⟨rfl, rfl, -⟩ := h
    exact ⟨hc, 0, rfl⟩
  | cons e es ih =>
    intro c rs c' tr hc h
    simp only [evalSources] at h
    cases hev : ev c e.source with
    | none => simp [hev] at h
    | some out =>
      obtain ⟨r, c₁, tr₁⟩ := out
      simp only [hev] at h
      obtain ⟨hc₁, f₁, hf₁⟩ := H c e.source r c₁ tr₁ hc hev
      cases hrest : evalSources ev es c₁ with
      | none => simp [hrest] at h
      | some out₂ =>
        obtain ⟨rs₂, c₂, tr₂⟩ := out₂
        simp only [hrest, Option.some.injEq, Prod.mk.injEq] at h
        obtain ⟨rfl, rfl, -⟩ := h
        obtain ⟨hc₂, f₂, hf₂⟩ := ih c₁ rs₂ c₂ tr₂ hc₁ hrest
        refine ⟨hc₂, max f₁ f₂, ?_⟩
        simp only [pureSources,
          evalPure_mono (Nat.le_max_left f₁ f₂) g e.source r hf₁,
          pureSources_mono
            (fun id r' h' => evalPure_mono (Nat.le_max_right f₁ f₂) g id r' h') es rs₂ hf₂]

theorem inputsLoop_sim {g : Graph} {ev : Cache → String → Option EvalOut}
    (H : ∀ c id r c' tr, GoodCache g c → ev c id = some (r, c', tr) →
      GoodCache g c' ∧ ∃ f, evalPure f g id = some r) (incomingEdges : List Edge) :
    ∀ (defs : List InputDefinition) (acc : ModifierInputs) (c : Cache)
      (inp : ModifierInputs) (c' : Cache) (tr : List String), GoodCache g c →
      inputsLoop ev incomingEdges defs acc c = some (inp, c', tr) →
      GoodCache g c' ∧
        ∃ f, pureInputsLoop (evalPure f g) incomingEdges defs acc = some inp := by
  intro defs
  induction defs with
  | nil =>
    intro acc c inp c' tr hc h
    simp only [inputsLoop, Option.some.injEq, Prod.mk.injEq] at h
    obtain ⟨rfl, rfl, -⟩ := h
    exact ⟨hc, 0, rfl⟩
  | cons d defs ih =>
    intro acc c inp c' tr hc h
    cases d with
    | keyword key required =>
      simp only [inputsLoop] at h
      cases hfind : incomingEdges.find? (fun e => e.targetHandle = some key) with
      | none =>
        simp only [hfind] at h
        obtain ⟨hc', f, hf⟩ := ih acc c inp c' tr hc h
        refine ⟨hc', f, ?_⟩
        simp only [pureInputsLoop, hfind]
        exact hf
      | some edge =>
        simp only [hfind] at h
        cases hev : ev c edge.source with
        | none => simp [hev] at h
        | some out =>
          obtain ⟨r, c₁, tr₁⟩ := out
          simp only [hev] at h
          obtain ⟨hc₁, f₁, hf₁⟩ := H c edge.source r c₁ tr₁ hc hev
          split at h
          next hrest => cases h
          next inp₂ c₂ tr₂ hrest =>
            simp only [Option.some.injEq, Prod.mk.injEq] at h
            obtain ⟨rfl, rfl, -⟩ := h
            obtain ⟨hc₂, f₂, hf₂⟩ := ih _ c₁ inp₂ c₂ tr₂ hc₁ hrest
            refine ⟨hc₂, max f₁ f₂, ?_⟩
            simp only [pureInputsLoop, hfind,
              evalPure_mono (Nat.le_max_left f₁ f₂) g edge.source r hf₁]
            exact pureInputsLoop_mono
              (fun id r' h' => evalPure_mono (Nat.le_max_right f₁ f₂) g id r' h')
              incomingEdges defs _ inp₂ hf₂
    | positional minCount =>
      simp only [inputsLoop] at h
      cases hsrc : evalSources ev (positionalEdges incomingEdges) c with
      | none => simp [hsrc] at h
      | some out =>
        obtain ⟨rs, c₁, tr₁⟩ := out
        simp only [hsrc] at h
        obtain ⟨hc₁, f₁, hf₁⟩ := evalSources_sim H (positionalEdges incomingEdges)
          c rs c₁ tr₁ hc hsrc
        cases hrest : inputsLoop ev incomingEdges defs
            { acc with positional := some rs.reduceOption } c₁ with
        | none => simp [hrest] at h
        | some out₂ =>
          obtain ⟨inp₂, c₂, tr₂⟩ := out₂
          simp only [hrest, Option.some.injEq, Prod.mk.injEq] at h
          obtain ⟨rfl, rfl, -⟩ := h
          obtain ⟨hc₂, f₂, hf₂⟩ := ih _ c₁ inp₂ c₂ tr₂ hc₁ hrest
          refine ⟨hc₂, max f₁ f₂, ?_⟩
          simp only [pureInputsLoop,
            pureSources_mono
              (fun id r' h' => evalPure_mono (Nat.le_max_left f₁ f₂) g id r' h')
              (positionalEdges incomingEdges) rs hf₁]
          exact pureInputsLoop_mono
            (fun id r' h' => evalPure_mono (Nat.le_max_right f₁ f₂) g id r' h')
            incomingEdges defs _ inp₂ hf₂

/-- Memoization correctness: from a good cache, a completed `evaluate` returns
the cache-free evaluator's value and leaves the cache good. -/
theorem evaluate_sim :
    ∀ (fuel : ℕ) (g : Graph) (c : Cache) (nodeId : String) (r : Option Pattern)
      (c' : Cache) (tr : List String), GoodCache g c →
      evaluate fuel g c nodeId = some (r, c', tr) →
      GoodCache g c' ∧ ∃ f, evalPure f g nodeId = some r := by
  intro fuel
  induction fuel with
  | zero => intro g c nodeId r c' tr _ h; cases h
  | succ fuel ih =>
    intro g c nodeId r c' tr hc h
    have H : ∀ c₀ id r₀ c₀' tr₀, GoodCache g c₀ →
        evaluate fuel g c₀ id = some (r₀, c₀', tr₀) →
        GoodCache g c₀' ∧ ∃ f, evalPure f g id = some r₀ :=
      fun c₀ id r₀ c₀' tr₀ => ih g c₀ id r₀ c₀' tr₀
    simp only [evaluate, evaluateStep] at h
    cases hfind : g.nodes.find? (fun n => n.id = nodeId) with
    | none =>
      simp only [hfind, Option.some.injEq, Prod.mk.injEq] at h
      obtain ⟨rfl, rfl, -⟩ := h
      refine ⟨hc, 1, ?_⟩
      simp [evalPure, evalPureStep, hfind]
    | some node =>
      have hid : node.id = nodeId := by
        have := List.find?_some hfind
        simpa using this
      simp only [hfind] at h
      cases hcl : cacheLookup c nodeId with
      | some v =>
        simp only [hcl, Option.some.injEq, Prod.mk.injEq] at h
        obtain ⟨rfl, rfl, -⟩ := h
        exact ⟨hc, hc nodeId v hcl⟩
      | none =>
        simp only [hcl] at h
        cases hstep : evaluateNodeStep (evaluate fuel g) g node c with
        | none => simp [hstep] at h
        | some out =>
          obtain ⟨pat, c₁, tr₁⟩ := out
          simp only [hstep, Option.some.injEq, Prod.mk.injEq] at h
          obtain ⟨rfl, rfl, -⟩ := h
          have hmain : GoodCache g c₁ ∧ ∃ f, evalPure (f + 1) g nodeId = some pat := by
            cases hdata : node.data with
            | patternSource pattern =>
              simp only [evaluateNodeStep, hdata, Option.some.injEq, Prod.mk.injEq] at hstep
              obtain ⟨rfl, rfl, -⟩ := hstep
              refine ⟨hc, 0, ?_⟩
              simp [evalPure, evalPureStep, hfind, hdata]
            | modifier modifierType params =>
              simp only [evaluateNodeStep, hdata, evaluateModifierStep] at hstep
              cases hmod : getModifier modifierType with
              | none =>
                simp only [hmod, Option.some.injEq, Prod.mk.injEq] at hstep
                obtain ⟨rfl, rfl, -⟩ := hstep
                refine ⟨hc, 0, ?_⟩
                simp [evalPure, evalPureStep, hfind, hdata, hmod]
              | some defn =>
                simp only [hmod] at hstep
                cases hinp : inputsLoop (evaluate fuel g)
                    (g.edges.filter (fun e => e.target = node.id)) defn.inputs {} c with
                | none => simp [hinp] at hstep
                | some out₂ =>
                  obtain ⟨inputs, c₂, tr₂⟩ := out₂
                  simp only [hinp] at hstep
                  obtain ⟨hc₂, f, hf⟩ := inputsLoop_sim H _ defn.inputs {} c inputs
                    c₂ tr₂ hc hinp
                  by_cases hval : validateInputs defn.inputs inputs = true
                  · simp only [hval, if_true, Option.some.injEq, Prod.mk.injEq] at hstep
                    obtain ⟨rfl, rfl, -⟩ := hstep
                    refine ⟨hc₂, f, ?_⟩
                    rw [hid] at hf
                    simp [evalPure, evalPureStep, hfind, hdata, hmod, hf, hval]
                  · simp only [hval, if_false, Option.some.injEq, Prod.mk.injEq] at hstep
                    obtain ⟨rfl, rfl, -⟩ := hstep
                    refine ⟨hc₂, f, ?_⟩
                    rw [hid] at hf
                    simp [evalPure, evalPureStep, hfind, hdata, hmod, hf, hval]
          obtain ⟨hc₁, f, hf⟩ := hmain
          exact ⟨goodCache_set hc₁ ⟨f + 1, hf⟩, f + 1, hf⟩

/-! ## C5: dropped `null` positional inputs

Removing a positional edge whose upstream evaluates to `null` does not change
any node's evaluation.  The key combinatorial facts: a stable insertion sort of
a list with one element removed is the sorted list with that element removed
(`insertionSort_middle`), and a `null` entry is dropped by the compaction. -/

theorem orderedInsert_middle {α : Type} (r : α → α → Prop) [DecidableRel r]
    [IsTrans α r] (x e : α) :
    ∀ (u v : List α), List.Sorted r (u ++ e :: v) →
      ∃ u' v', List.orderedInsert r x (u ++ v) = u' ++ v' ∧
        List.orderedInsert r x (u ++ e :: v) = u' ++ e :: v' := by
  intro u
  induction u with
  | nil =>
    intro v hs
    by_cases hxe : r x e
    · refine ⟨[x], v, ?_, ?_⟩
      · cases v with
        | nil => rfl
        | cons v₀ v' =>
          have hev₀ : r e v₀ := (List.sorted_cons.mp hs).1 v₀ (List.mem_cons_self _ _)
          have hxv₀ : r x v₀ := IsTrans.trans x e v₀ hxe hev₀
          simp [List.orderedInsert, hxv₀]
      · simp [List.orderedInsert, hxe]
    · refine ⟨[], List.orderedInsert r x v, by simp, ?_⟩
      simp [List.orderedInsert, hxe]
  | cons z u ih =>
    intro v hs
    by_cases hxz : r x z
    · refine ⟨x :: z :: u, v, ?_, ?_⟩
      · simp [List.orderedInsert, hxz]
      · simp [List.orderedInsert, hxz]
    · have hs' : List.Sorted r (u ++ e :: v) := (List.sorted_cons.mp hs).2
      obtain ⟨u', v', h1, h2⟩ := ih v hs'
      refine ⟨z :: u', v', ?_, ?_⟩
      · simp only [List.cons_append, List.orderedInsert, if_neg hxz]
        exact congrArg (z :: ·) h1
      · simp only [List.cons_append, List.orderedInsert, if_neg hxz]
        exact congrArg (z :: ·) h2

theorem insertionSort_middle {α : Type} (r : α → α → Prop) [DecidableRel r]
    [IsTotal α r] [IsTrans α r] (e : α) :
    ∀ (a b : List α), ∃ u v, List.insertionSort r (a ++ b) = u ++ v ∧
      List.insertionSort r (a ++ e :: b) = u ++ e :: v := by
  intro a
  induction a with
  | nil =>
    intro b
    refine ⟨(List.insertionSort r b).takeWhile (fun c => ¬ r e c),
      (List.insertionSort r b).dropWhile (fun c => ¬ r e c), ?_, ?_⟩
    · rw [List.nil_append, List.takeWhile_append_dropWhile]
    · show List.insertionSort r (e :: b) = _
      rw [List.insertionSort]
      exact List.orderedInsert_eq_take_drop r e _
  | cons z a ih =>
    intro b
    obtain ⟨u, v, h1, h2⟩ := ih b
    have hsorted : List.Sorted r (u ++ e :: v) := h2 ▸ List.sorted_insertionSort r _
    obtain ⟨u', v', g1, g2⟩ := orderedInsert_middle r z e u v hsorted
    refine ⟨u', v', ?_, ?_⟩
    · show List.insertionSort r (z :: (a ++ b)) = _
      rw [List.insertionSort, h1, g1]
    · show List.insertionSort r (z :: (a ++ e :: b)) = _
      rw [List.insertionSort, h2, g2]

theorem find?_middle_neg {α : Type} (p : α → Bool) (e : α) (hpe : p e = false) :
    ∀ a b : List α, List.find? p (a ++ e :: b) = List.find? p (a ++ b) := by
  intro a b
  induction a with
  | nil =>
    simp only [List.nil_append]
    rw [List.find?_cons_of_neg _ (by simp [hpe])]
  | cons z a ih =>
    simp only [List.cons_append, List.find?_cons]
    cases p z <;> simp [ih]

theorem pureSources_rel {ev₁ ev₂ : String → Option (Option Pattern)}
    (H : ∀ id, ev₁ id = none ∨ ev₁ id = ev₂ id) :
    ∀ es : List Edge, pureSources ev₁ es = none ∨
      pureSources ev₁ es = pureSources ev₂ es := by
  intro es
  induction es with
  | nil => exact Or.inr rfl
  | cons e es ih =>
    cases hev : ev₁ e.source with
    | none => exact Or.inl (by simp [pureSources, hev])
    | some r =>
      have hev₂ : ev₂ e.source = some r := by
        rcases H e.source with h | h
        · rw [h] at hev; cases hev
        · rw [← h, hev]
      rcases ih with h | h
      · exact Or.inl (by simp [pureSources, hev, h])
      · refine Or.inr ?_
        simp only [pureSources, hev, hev₂, h]

theorem pureSources_middle {ev₁ ev₂ : String → Option (Option Pattern)} (e : Edge)
    (H : ∀ id, ev₁ id = none ∨ ev₁ id = ev₂ id)
    (hnull : ev₁ e.source = none ∨ ev₁ e.source = some none) :
    ∀ u v : List Edge, pureSources ev₁ (u ++ e :: v) = none ∨
      ∃ rs₁ rs₂, pureSources ev₁ (u ++ e :: v) = some rs₁ ∧
        pureSources ev₂ (u ++ v) = some rs₂ ∧ rs₁.reduceOption = rs₂.reduceOption := by
  intro u
  induction u with
  | nil =>
    intro v
    rcases hnull with h | h
    · exact Or.inl (by simp [pureSources, h])
    · rcases pureSources_rel H v with hv | hv
      · exact Or.inl (by simp [pureSources, h, hv])
      · cases hv2 : pureSources ev₁ v with
        | none => exact Or.inl (by simp [pureSources, h, hv2])
        | some rs =>
          refine Or.inr ⟨none :: rs, rs, ?_, ?_, ?_⟩
          · simp [pureSources, h, hv2]
          · rw [List.nil_append, ← hv, hv2]
          · simp [List.reduceOption]
  | cons z u ih =>
    intro v
    cases hev : ev₁ z.source with
    | none => exact Or.inl (by simp [pureSources, hev])
    | some r =>
      have hev₂ : ev₂ z.source = some r := by
        rcases H z.source with h | h
        · rw [h] at hev; cases hev
        · rw [← h, hev]
      rcases ih v with h | ⟨rs₁, rs₂, h1, h2, h3⟩
      · exact Or.inl (by simp [pureSources, hev, h])
      · refine Or.inr ⟨r :: rs₁, r :: rs₂, ?_, ?_, ?_⟩
        · simp [pureSources, hev, h1]
        · simp [pureSources, hev₂, h2]
        · simp only [List.reduceOption] at h3 ⊢
          cases r <;> simp [h3]

theorem getModifier_inputs (t : String) (defn : ModifierDefinition)
    (h : getModifier t = some defn) :
    defn.inputs = [.positional 2] ∨ defn.inputs = [.keyword "pattern" true] := by
  unfold getModifier at h
  split at h <;> simp_all <;> subst h <;> simp

theorem pureInputsLoop_rel {ev₁ ev₂ : String → Option (Option Pattern)}
    (H : ∀ id, ev₁ id = none ∨ ev₁ id = ev₂ id) (edges : List Edge) :
    ∀ (defs : List InputDefinition) (acc : ModifierInputs),
      pureInputsLoop ev₁ edges defs acc = none ∨
      pureInputsLoop ev₁ edges defs acc = pureInputsLoop ev₂ edges defs acc := by
  intro defs
  induction defs with
  | nil => intro acc; exact Or.inr rfl
  | cons d defs ih =>
    intro acc
    cases d with
    | keyword key required =>
      cases hfind : edges.find? (fun e => e.targetHandle = some key) with
      | none => simpa [pureInputsLoop, hfind] using ih acc
      | some edge =>
        cases hev : ev₁ edge.source with
        | none => exact Or.inl (by simp [pureInputsLoop, hfind, hev])
        | some r =>
          have hev₂ : ev₂ edge.source = some r := by
            rcases H edge.source with h | h
            · rw [h] at hev; cases hev
            · rw [← h, hev]
          cases r with
          | some p =>
            rcases ih { acc with keyword := acc.keyword ++ [(key, p)] } with h | h
            · exact Or.inl (by simp [pureInputsLoop, hfind, hev, h])
            · refine Or.inr ?_
              simp only [pureInputsLoop, hfind, hev, hev₂]
              exact h
          | none =>
            rcases ih acc with h | h
            · exact Or.inl (by simp [pureInputsLoop, hfind, hev, h])
            · refine Or.inr ?_
              simp only [pureInputsLoop, hfind, hev, hev₂]
              exact h
    | positional minCount =>
      cases hsrc : pureSources ev₁ (positionalEdges edges) with
      | none => exact Or.inl (by simp [pureInputsLoop, hsrc])
      | some rs =>
        have hsrc₂ : pureSources ev₂ (positionalEdges edges) = some rs := by
          rcases pureSources_rel H (positionalEdges edges) with h | h
          · rw [h] at hsrc; cases hsrc
          · rw [← h, hsrc]
        rcases ih { acc with positional := some rs.reduceOption } with h | h
        · exact Or.inl (by simp [pureInputsLoop, hsrc, h])
        · refine Or.inr ?_
          simp only [pureInputsLoop, hsrc, hsrc₂]
          exact h

theorem evalPureStep_modifier_eq (ev : String → Option (Option Pattern)) (g : Graph)
    (x : String) (node : GraphNode) (t : String) (params : ModifierParams)
    (defn : ModifierDefinition) (hfind : g.nodes.find? (fun n => n.id = x) = some node)
    (hdata : node.data = .modifier t params) (hmod : getModifier t = some defn) :
    evalPureStep ev g x =
      (match pureInputsLoop ev (g.edges.filter (fun e => e.target = x)) defn.inputs {} with
       | none => none
       | some inputs =>
         if validateInputs defn.inputs inputs then some (applyModifier t params inputs)
         else some none) := by
  simp [evalPureStep, hfind, hdata, hmod]

/-- Removing one positional edge whose source evaluates to `null` does not
change the value `evalPure` assigns to any node (the `null` was dropped from
the positional sequence anyway); the run on the larger graph may only need
more fuel. -/
theorem evalPure_erase_edge (g g' : Graph) (e : Edge) (l₁ l₂ : List Edge)
    (hn : g'.nodes = g.nodes) (hg : g.edges = l₁ ++ e :: l₂) (hg' : g'.edges = l₁ ++ l₂)
    (hpos : isPositionalEdge e = true)
    (hnull : ∃ f₀, evalPure f₀ g e.source = some none) :
    ∀ (m : ℕ) (x : String), evalPure m g x = none ∨ evalPure m g x = evalPure m g' x := by
  intro m
  induction m with
  | zero => intro x; exact Or.inl rfl
  | succ m ih =>
    intro x
    have hnull' : evalPure m g e.source = none ∨ evalPure m g e.source = some none := by
      obtain ⟨f₀, h₀⟩ := hnull
      cases hm : evalPure m g e.source with
      | none => exact Or.inl rfl
      | some w => exact Or.inr (by rw [evalPure_det hm h₀])
    show evalPureStep (evalPure m g) g x = none ∨
      evalPureStep (evalPure m g) g x = evalPureStep (evalPure m g') g' x
    cases hfind : g.nodes.find? (fun n => n.id = x) with
    | none =>
      refine Or.inr ?_
      simp [evalPureStep, hfind, hn]
    | some node =>
      cases hdata : node.data with
      | patternSource pattern =>
        refine Or.inr ?_
        simp [evalPureStep, hfind, hdata, hn]
      | modifier t params =>
        cases hmod : getModifier t with
        | none =>
          refine Or.inr ?_
          simp [evalPureStep, hfind, hdata, hmod, hn]
        | some defn =>
          have hfind' : g'.nodes.find? (fun n => n.id = x) = some node := by
            rw [hn]
            exact hfind
          rw [evalPureStep_modifier_eq (evalPure m g) g x node t params defn hfind hdata hmod,
            evalPureStep_modifier_eq (evalPure m g') g' x node t params defn hfind' hdata hmod]
          by_cases hxt : e.target = x
          · have hinc₁ : g.edges.filter (fun e' => e'.target = x)
                = l₁.filter (fun e' => e'.target = x) ++
                    e :: l₂.filter (fun e' => e'.target = x) := by
              simp [hg, List.filter_append, List.filter_cons, hxt]
            have hinc₂ : g'.edges.filter (fun e' => e'.target = x)
                = l₁.filter (fun e' => e'.target = x) ++ l₂.filter (fun e' => e'.target = x) := by
              simp [hg', List.filter_append]
            rw [hinc₁, hinc₂]
            rcases getModifier_inputs t defn hmod with hdef | hdef
            · rw [hdef]
              have hfil₁ : (l₁.filter (fun e' => e'.target = x) ++
                    e :: l₂.filter (fun e' => e'.target = x)).filter isPositionalEdge
                  = (l₁.filter (fun e' => e'.target = x)).filter isPositionalEdge ++
                      e :: (l₂.filter (fun e' => e'.target = x)).filter isPositionalEdge := by
                simp [List.filter_append, List.filter_cons, hpos]
              obtain ⟨u, v, hs1, hs2⟩ := insertionSort_middle edgeIdxLE e
                ((l₁.filter (fun e' => e'.target = x)).filter isPositionalEdge)
                ((l₂.filter (fun e' => e'.target = x)).filter isPositionalEdge)
              have hpe₁ : positionalEdges (l₁.filter (fun e' => e'.target = x) ++
                  e :: l₂.filter (fun e' => e'.target = x)) = u ++ e :: v := by
                rw [positionalEdges, hfil₁, hs2]
              have hpe₂ : positionalEdges (l₁.filter (fun e' => e'.target = x) ++
                  l₂.filter (fun e' => e'.target = x)) = u ++ v := by
                rw [positionalEdges, List.filter_append, hs1]
              rcases pureSources_middle e ih hnull' u v with h | ⟨rs₁, rs₂, h1, h2, h3⟩
              · refine Or.inl ?_
                simp [pureInputsLoop, hpe₁, h]
              · refine Or.inr ?_
                simp only [pureInputsLoop, hpe₁, hpe₂, h1, h2, h3]
            · rw [hdef]
              have hpe : (fun e' : Edge => decide (e'.targetHandle = some "pattern")) e
                  = false := by
                cases hth : e.targetHandle with
                | none => simp [isPositionalEdge, hth] at hpos
                | some hh =>
                  simp only [hth, decide_eq_false_iff_not]
                  intro heq
                  injection heq with heq'
                  rw [isPositionalEdge, hth, heq'] at hpos
                  exact absurd hpos (by decide)
              have hfindeq := find?_middle_neg
                (fun e' : Edge => e'.targetHandle = some "pattern") e hpe
                (l₁.filter (fun e' => e'.target = x)) (l₂.filter (fun e' => e'.target = x))
              cases hfound : (l₁.filter (fun e' => e'.target = x) ++
                  l₂.filter (fun e' => e'.target = x)).find?
                    (fun e' => e'.targetHandle = some "pattern") with
              | none =>
                refine Or.inr ?_
                rw [hfound] at hfindeq
                simp [pureInputsLoop, hfindeq, hfound]
              | some edge₂ =>
                rw [hfound] at hfindeq
                cases hev : evalPure m g edge₂.source with
                | none =>
                  refine Or.inl ?_
                  simp [pureInputsLoop, hfindeq, hev]
                | some r =>
                  have hev₂ : evalPure m g' edge₂.source = some r := by
                    rcases ih edge₂.source with h | h
                    · rw [h] at hev; cases hev
                    · rw [← h, hev]
                  refine Or.inr ?_
                  simp [pureInputsLoop, hfindeq, hfound, hev, hev₂]
          · have hinceq : g.edges.filter (fun e' => e'.target = x)
                = g'.edges.filter (fun e' => e'.target = x) := by
              simp [hg, hg', List.filter_append, List.filter_cons, hxt]
            rw [hinceq]
            rcases pureInputsLoop_rel ih (g'.edges.filter (fun e' => e'.target = x))
                defn.inputs {} with h | h
            · exact Or.inl (by simp [h])
            · exact Or.inr (by rw [h])

/-- C5: if a positional edge's upstream source evaluates to `null`, evaluating
the edge's target node (from an empty cache) yields a result identical to
evaluating it on the graph with that positional edge omitted — the `null` is
silently compacted out of the positional sequence before validation and
invocation. -/
theorem evaluate_null_positional_claim (g g' : Graph) (e : Edge) (l₁ l₂ : List Edge)
    (hn : g'.nodes = g.nodes) (hg : g.edges = l₁ ++ e :: l₂) (hg' : g'.edges = l₁ ++ l₂)
    (hpos : isPositionalEdge e = true) (f₀ : ℕ) (c₀ : Cache) (tr₀ : List String)
    (hsrc : evaluate f₀ g [] e.source = some (none, c₀, tr₀)) :
    ∀ (f f' : ℕ) (r r' : Option Pattern) (c₁ c₂ : Cache) (t₁ t₂ : List String),
      evaluate f g [] e.target = some (r, c₁, t₁) →
      evaluate f' g' [] e.target = some (r', c₂, t₂) → r = r' := by
  intro f f' r r' c₁ c₂ t₁ t₂ h h'
  obtain ⟨-, k, hk⟩ := evaluate_sim f g [] e.target r c₁ t₁ (goodCache_nil g) h
  obtain ⟨-, k', hk'⟩ := evaluate_sim f' g' [] e.target r' c₂ t₂ (goodCache_nil g') h'
  obtain ⟨-, k₀, hk₀⟩ := evaluate_sim f₀ g [] e.source none c₀ tr₀ (goodCache_nil g) hsrc
  have hS := evalPure_erase_edge g g' e l₁ l₂ hn hg hg' hpos ⟨k₀, hk₀⟩
  have hK : evalPure (max k k') g e.target = some r :=
    evalPure_mono (le_max_left _ _) _ _ _ hk
  have hK' : evalPure (max k k') g' e.target = some r' :=
    evalPure_mono (le_max_right _ _) _ _ _ hk'
  rcases hS (max k k') e.target with h0 | h0
  · rw [hK] at h0
    cases h0
  · rw [hK, hK'] at h0
    injection h0

/-- Positional witness graph: a `union` node `N` fed by a failing node `S` on
`pos-0` and pattern sources `A`, `B` on `pos-1`, `pos-2`. -/
def witnessGraphPos : Graph :=
  { nodes := [
      { id := "S", data := .modifier "nope" {} },
      { id := "A", data := .patternSource { notes := [], duration := some 1 } },
      { id := "B", data := .patternSource { notes := [], duration := some 2 } },
      { id := "N", data := .modifier "union" {} }],
    edges := [
      { source := "S", target := "N", targetHandle := some "pos-0" },
      { source := "A", target := "N", targetHandle := some "pos-1" },
      { source := "B", target := "N", targetHandle := some "pos-2" }] }

/-- `witnessGraphPos` with the failing positional edge omitted. -/
def witnessGraphPosErased : Graph :=
  { nodes := witnessGraphPos.nodes,
    edges := [
      { source := "A", target := "N", targetHandle := some "pos-1" },
      { source := "B", target := "N", targetHandle := some "pos-2" }] }

/-- Closed witness for C5: on the concrete graphs the two evaluations of `N`
succeed and the claim's equality of results follows from the theorem. -/
theorem evaluate_null_positional_claim_witness :
    ∃ r r' : Option Pattern,
      (∃ c t, evaluate 4 witnessGraphPos [] "N" = some (r, c, t)) ∧
      (∃ c t, evaluate 4 witnessGraphPosErased [] "N" = some (r', c, t)) ∧ r = r' := by
  refine ⟨some { notes := [], duration := some 2 }, some { notes := [], duration := some 2 },
    ⟨[("N", some { notes := [], duration := some 2 }),
      ("B", some { notes := [], duration := some 2 }),
      ("A", some { notes := [], duration := some 1 }), ("S", none)],
      ["N", "S", "A", "B"], by decide⟩,
    ⟨[("N", some { notes := [], duration := some 2 }),
      ("B", some { notes := [], duration := some 2 }),
      ("A", some { notes := [], duration := some 1 })],
      ["N", "A", "B"], by decide⟩, ?_⟩
  exact evaluate_null_positional_claim witnessGraphPos witnessGraphPosErased
    { source := "S", target := "N", targetHandle := some "pos-0" } []
    [{ source := "A", target := "N", targetHandle := some "pos-1" },
     { source := "B", target := "N", targetHandle := some "pos-2" }]
    rfl rfl rfl (by decide) 2 [("S", none)] ["S"] (by decide) 4 4
    (some { notes := [], duration := some 2 }) (some { notes := [], duration := some 2 })
    [("N", some { notes := [], duration := some 2 }),
     ("B", some { notes := [], duration := some 2 }),
     ("A", some { notes := [], duration := some 1 }), ("S", none)]
    [("N", some { notes := [], duration := some 2 }),
     ("B", some { notes := [], duration := some 2 }),
     ("A", some { notes := [], duration := some 1 })]
    ["N", "S", "A", "B"] ["N", "A", "B"] (by decide) (by decide)

/-! ## C6: `null` exactly at the failure cases, exceptions never escape -/

/-- `inputs.positional?.length ?? 0`. -/
def posCount (inputs : ModifierInputs) : ℕ :=
  match inputs.positional with
  | some l => l.length
  | none => 0

theorem validateInputs_false_iff (defs : List InputDefinition) (inputs : ModifierInputs) :
    validateInputs defs inputs = false ↔
      ∃ d ∈ defs,
        (∃ key, d = .keyword key true ∧ lookupKeyword inputs key = none) ∨
        (∃ m, d = .positional m ∧ posCount inputs < m) := by
  unfold validateInputs
  rw [Bool.eq_false_iff, Ne, List.all_eq_true]
  push_neg
  constructor
  · rintro ⟨d, hd, hpred⟩
    refine ⟨d, hd, ?_⟩
    cases d with
    | keyword key required =>
      cases required with
      | false => simp at hpred
      | true =>
        refine Or.inl ⟨key, rfl, ?_⟩
        simp only [Bool.not_true, Bool.false_or] at hpred
        exact Option.not_isSome_iff_eq_none.mp (fun hs => hpred hs)
    | positional m =>
      refine Or.inr ⟨m, rfl, ?_⟩
      refine Nat.lt_of_not_le (fun hle => hpred ?_)
      exact decide_eq_true_eq.mpr hle
  · rintro ⟨d, hd, hcase⟩
    refine ⟨d, hd, ?_⟩
    rcases hcase with ⟨key, rfl, hlk⟩ | ⟨m, rfl, hlt⟩
    · simp [hlk]
    · intro hle
      exact absurd (decide_eq_true_eq.mp hle) (Nat.not_le.mpr hlt)

/-- C6: `evaluate` is a total function of its inputs (no exception escapes the
evaluator; a throwing modifier is caught and becomes `null`), and a computed
(cache-miss) evaluation returns `null` exactly in the claimed failure cases:
unknown node id, unknown modifier type, a required keyword input unbound, a
positional sequence shorter than `minCount`, or the modifier function itself
raising an exception. -/
theorem evaluate_null_cases_claim (fuel : ℕ) (g : Graph) (c : Cache) (nodeId : String)
    (r : Option Pattern) (c' : Cache) (tr : List String)
    (hmiss : cacheLookup c nodeId = none)
    (hev : evaluate (fuel + 1) g c nodeId = some (r, c', tr)) :
    r = none ↔
      (g.nodes.find? (fun n => n.id = nodeId) = none ∨
        ∃ node, g.nodes.find? (fun n => n.id = nodeId) = some node ∧
          ∃ t params, node.data = .modifier t params ∧
            (getModifier t = none ∨
              ∃ defn inputs c₂ tr₂, getModifier t = some defn ∧
                inputsLoop (evaluate fuel g) (g.edges.filter (fun e => e.target = nodeId))
                  defn.inputs {} c = some (inputs, c₂, tr₂) ∧
                ((∃ key, InputDefinition.keyword key true ∈ defn.inputs ∧
                    lookupKeyword inputs key = none) ∨
                 (∃ m, InputDefinition.positional m ∈ defn.inputs ∧ posCount inputs < m) ∨
                 (validateInputs defn.inputs inputs = true ∧
                   defn.execute inputs params = .error ())))) := by
  simp only [evaluate, evaluateStep] at hev
  cases hfind : g.nodes.find? (fun n => n.id = nodeId) with
  | none =>
    simp only [hfind, Option.some.injEq, Prod.mk.injEq] at hev
    obtain ⟨rfl, -, -⟩ := hev
    exact iff_of_true rfl (Or.inl rfl)
  | some node =>
    have hid : node.id = nodeId := by
      have := List.find?_some hfind
      simpa using this
    simp only [hfind, hmiss] at hev
    cases hdata : node.data with
    | patternSource pattern =>
      simp only [evaluateNodeStep, hdata, Option.some.injEq, Prod.mk.injEq] at hev
      obtain ⟨rfl, -, -⟩ := hev
      refine iff_of_false (by simp) ?_
      rintro (h | ⟨node2, hnode2, t, params, hdata2, -⟩)
      · cases h
      · injection hnode2 with hnode2
        subst hnode2
        rw [hdata] at hdata2
        cases hdata2
    | modifier modifierType params =>
      simp only [evaluateNodeStep, hdata, evaluateModifierStep, hid] at hev
      cases hmod : getModifier modifierType with
      | none =>
        simp only [hmod, Option.some.injEq, Prod.mk.injEq] at hev
        obtain ⟨rfl, -, -⟩ := hev
        exact iff_of_true rfl
          (Or.inr ⟨node, rfl, modifierType, params, hdata, Or.inl hmod⟩)
      | some defn =>
        simp only [hmod] at hev
        cases hinp : inputsLoop (evaluate fuel g)
            (g.edges.filter (fun e => e.target = nodeId)) defn.inputs {} c with
        | none => simp [hinp] at hev
        | some out =>
          obtain ⟨inputs, c₂, tr₂⟩ := out
          simp only [hinp] at hev
          by_cases hval : validateInputs defn.inputs inputs = true
          · simp only [hval, if_true, Option.some.injEq, Prod.mk.injEq] at hev
            obtain ⟨rfl, -, -⟩ := hev
            rw [applyModifier, hmod]
            cases hexec : defn.execute inputs params with
            | ok p =>
              refine iff_of_false (by simp [hexec]) ?_
              rintro (h | ⟨node2, hnode2, t2, params2, hdata2, hrest⟩)
              · cases h
              · injection hnode2 with hnode2
                subst hnode2
                rw [hdata, NodeData.modifier.injEq] at hdata2
                obtain ⟨rfl, rfl⟩ := hdata2
                rcases hrest with h | ⟨defn2, inputs2, c₃, tr₃, hmod2, hinp2, hfail⟩
                · rw [hmod] at h
                  cases h
                · rw [hmod, Option.some.injEq] at hmod2
                  subst hmod2
                  rw [hinp, Option.some.injEq, Prod.mk.injEq] at hinp2
                  obtain ⟨rfl, -, -⟩ := hinp2
                  rcases hfail with ⟨key, hk, hlk⟩ | ⟨m, hm, hlt⟩ | ⟨-, herr⟩
                  · have : validateInputs defn.inputs inputs = false :=
                      (validateInputs_false_iff defn.inputs inputs).mpr
                        ⟨_, hk, Or.inl ⟨key, rfl, hlk⟩⟩
                    rw [hval] at this
                    cases this
                  · have : validateInputs defn.inputs inputs = false :=
                      (validateInputs_false_iff defn.inputs inputs).mpr
                        ⟨_, hm, Or.inr ⟨m, rfl, hlt⟩⟩
                    rw [hval] at this
                    cases this
                  · rw [hexec] at herr
                    cases herr
            | error u =>
              cases u
              refine iff_of_true (by simp [hexec]) ?_
              exact Or.inr ⟨node, rfl, modifierType, params, hdata,
                Or.inr ⟨defn, inputs, c₂, tr₂, hmod, hinp,
                  Or.inr (Or.inr ⟨hval, hexec⟩)⟩⟩
          · simp only [hval, if_false, Option.some.injEq, Prod.mk.injEq] at hev
            obtain ⟨rfl, -, -⟩ := hev
            have hfalse : validateInputs defn.inputs inputs = false :=
              Bool.eq_false_iff.mpr hval
            obtain ⟨d, hd, hcase⟩ := (validateInputs_false_iff defn.inputs inputs).mp hfalse
            refine iff_of_true rfl
              (Or.inr ⟨node, rfl, modifierType, params, hdata,
                Or.inr ⟨defn, inputs, c₂, tr₂, hmod, hinp, ?_⟩⟩)
            rcases hcase with ⟨key, rfl, hlk⟩ | ⟨m, rfl, hlt⟩
            · exact Or.inl ⟨key, hd, hlk⟩
            · exact Or.inr (Or.inl ⟨m, hd, hlt⟩)

/-- A quantize node with a zero grid fed by a one-note source: the modifier
function throws (`fraction.js` division by zero) and the evaluator converts the
exception to a `null` result. -/
def witnessGraphQuantize : Graph :=
  { nodes := [
      { id := "A", data := .patternSource witnessPattern },
      { id := "Q", data := .modifier "quantize" { grid := 0 } }],
    edges := [{ source := "A", target := "Q", targetHandle := some "pattern" }] }

/-- Closed witness for C6: the concrete zero-grid quantize evaluation returns
`null`, and the claim's characterization (applied via the theorem) certifies
that the failure is one of the enumerated cases. -/
theorem evaluate_null_cases_claim_witness :
    evaluate 2 witnessGraphQuantize [] "Q" =
      some (none, [("Q", none), ("A", some witnessPattern)], ["Q", "A"]) ∧
    (witnessGraphQuantize.nodes.find? (fun n => n.id = "Q") = none ∨
      ∃ node, witnessGraphQuantize.nodes.find? (fun n => n.id = "Q") = some node ∧
        ∃ t params, node.data = .modifier t params ∧
          (getModifier t = none ∨
            ∃ defn inputs c₂ tr₂, getModifier t = some defn ∧
              inputsLoop (evaluate 1 witnessGraphQuantize)
                (witnessGraphQuantize.edges.filter (fun e => e.target = "Q"))
                defn.inputs {} [] = some (inputs, c₂, tr₂) ∧
              ((∃ key, InputDefinition.keyword key true ∈ defn.inputs ∧
                  lookupKeyword inputs key = none) ∨
               (∃ m, InputDefinition.positional m ∈ defn.inputs ∧ posCount inputs < m) ∨
               (validateInputs defn.inputs inputs = true ∧
                 defn.execute inputs params = .error ())))) := by
  have hev : evaluate 2 witnessGraphQuantize [] "Q" =
      some (none, [("Q", none), ("A", some witnessPattern)], ["Q", "A"]) := by decide
  refine ⟨hev, ?_⟩
  exact (evaluate_null_cases_claim 1 witnessGraphQuantize [] "Q" none
    [("Q", none), ("A", some witnessPattern)] ["Q", "A"] rfl hev).mp rfl

/-! ## C9: `detectCycles`

The development follows the classic DFS argument: the recursion stack mirrors
the current path (soundness of the returned witness), and the finished nodes
form a topologically ordered list (completeness: a `null` answer forces
acyclicity).  All runs terminate within `dfsFuel`. -/

theorem dfsEdges_basic
    (rec : String → List String → List String → List String →
      Option (Option (List String) × List String × List String))
    (Hrec : ∀ id path v s res v' s', rec id path v s = some (res, v', s') →
      (∀ x ∈ v, x ∈ v') ∧ (res = none → s' = s))
    (path : List String) : ∀ (es : List Edge) (visited stack : List String)
      (res : Option (List String)) (v' s' : List String),
      dfsEdges rec path es visited stack = some (res, v', s') →
      (∀ x ∈ visited, x ∈ v') ∧ (res = none → s' = stack) := by
  intro es
  induction es with
  | nil =>
    intro visited stack res v' s' h
    simp only [dfsEdges, Option.some.injEq, Prod.mk.injEq] at h
    obtain ⟨rfl, rfl, rfl⟩ := h
    exact ⟨fun x hx => hx, fun _ => rfl⟩
  | cons e es ih =>
    intro visited stack res v' s' h
    simp only [dfsEdges] at h
    by_cases hv : e.target ∈ visited
    · rw [if_pos hv] at h
      by_cases hs : e.target ∈ stack
      · rw [if_pos hs] at h
        simp only [Option.some.injEq, Prod.mk.injEq] at h
        obtain ⟨rfl, rfl, rfl⟩ := h
        exact ⟨fun x hx => hx, fun hcontra => by cases hcontra⟩
      · rw [if_neg hs] at h
        exact ih visited stack res v' s' h
    · rw [if_neg hv] at h
      cases hrec : rec e.target path visited stack with
      | none => rw [hrec] at h; cases h
      | some out =>
        obtain ⟨res₁, v₁, s₁⟩ := out
        rw [hrec] at h
        obtain ⟨hmono₁, hstack₁⟩ := Hrec _ _ _ _ _ _ _ hrec
        cases res₁ with
        | some cyc =>
          simp only [Option.some.injEq, Prod.mk.injEq] at h
          obtain ⟨rfl, rfl, rfl⟩ := h
          exact ⟨hmono₁, fun hcontra => by cases hcontra⟩
        | none =>
          simp only at h
          obtain ⟨hmono₂, hstack₂⟩ := ih v₁ s₁ res v' s' h
          refine ⟨fun x hx => hmono₂ x (hmono₁ x hx), fun hres => ?_⟩
          rw [hstack₂ hres]
          exact hstack₁ rfl

theorem dfs_basic : ∀ (fuel : ℕ) (g : Graph) (id : String)
    (path visited stack : List String) (res : Option (List String)) (v' s' : List String),
    dfs fuel g id path visited stack = some (res, v', s') →
    (∀ x ∈ visited, x ∈ v') ∧ (res = none → s' = stack) := by
  intro fuel
  induction fuel with
  | zero => intro g id path visited stack res v' s' h; cases h
  | succ fuel ih =>
    intro g id path visited stack res v' s' h
    simp only [dfs] at h
    cases hloop : dfsEdges (dfs fuel g) (path ++ [id])
        (g.edges.filter (fun e => e.source = id)) (id :: visited) (id :: stack) with
    | none => rw [hloop] at h; cases h
    | some out =>
      obtain ⟨res₁, v₁, s₁⟩ := out
      rw [hloop] at h
      obtain ⟨hmono, hstack⟩ := dfsEdges_basic (dfs fuel g) (fun a b c d e f k hk =>
        ih g a b c d e f k hk) (path ++ [id]) _ _ _ _ _ _ hloop
      cases res₁ with
      | some cyc =>
        simp only [Option.some.injEq, Prod.mk.injEq] at h
        obtain ⟨rfl, rfl, rfl⟩ := h
        exact ⟨fun x hx => hmono x (List.mem_cons_of_mem _ hx),
          fun hcontra => by cases hcontra⟩
      | none =>
        simp only [Option.some.injEq, Prod.mk.injEq] at h
        obtain ⟨rfl, rfl, rfl⟩ := h
        refine ⟨fun x hx => hmono x (List.mem_cons_of_mem _ hx), fun _ => ?_⟩
        rw [hstack rfl]
        exact List.erase_cons_head id stack

/-- A genuine simple cycle witness: a nonempty edge-path that starts and ends
at the same node and repeats no other node. -/
def IsCycleWitness (g : Graph) (L : List String) : Prop :=
  ∃ t post, L = t :: (post ++ [t]) ∧ List.Chain' (edgeStep g.edges) L ∧ (t :: post).Nodup

theorem indexOf_drop : ∀ (l : List String) (t : String), t ∈ l →
    ∃ pre post, l = pre ++ t :: post ∧ l.drop (l.indexOf t) = t :: post := by
  intro l
  induction l with
  | nil => intro t ht; cases ht
  | cons a l ih =>
    intro t ht
    by_cases hat : a = t
    · subst hat
      exact ⟨[], l, rfl, by rw [List.indexOf_cons_self]; rfl⟩
    · have htl : t ∈ l := by
        rcases List.mem_cons.mp ht with h | h
        · exact absurd h.symm hat
        · exact h
      obtain ⟨pre, post, hl, hd⟩ := ih t htl
      refine ⟨a :: pre, post, by rw [List.cons_append, ← hl], ?_⟩
      rw [List.indexOf_cons_ne l hat, List.drop_succ_cons, hd]

theorem chain_last_link {R : String → String → Prop} (pre post : List String) (t c : String)
    (hch : List.Chain' R (pre ++ t :: post))
    (hlast : (pre ++ t :: post).getLast? = some c)
    (hRt : R c t) :
    List.Chain' R ((t :: post) ++ [t]) := by
  obtain ⟨-, hch₂, -⟩ := List.chain'_append.mp hch
  refine List.chain'_append.mpr ⟨hch₂, List.chain'_singleton t, ?_⟩
  intro x hx y hy
  rw [List.getLast?_append] at hlast
  cases hpost : (t :: post).getLast? with
  | none => cases hpost
  | some z =>
    rw [hpost] at hlast
    simp only [Option.or_some] at hlast
    rw [hpost] at hx
    simp only [Option.mem_def, Option.some.injEq] at hx hy
    subst hx
    simp only [List.head?_cons, Option.mem_def, Option.some.injEq] at hy
    subst hy
    cases hlast
    exact hRt

theorem chain_transGen {R : String → String → Prop} :
    ∀ (l : List String) (a b : String),
    List.Chain' R (a :: (l ++ [b])) → Relation.TransGen R a b := by
  intro l
  induction l with
  | nil =>
    intro a b h
    exact Relation.TransGen.single (List.chain'_cons.mp h).1
  | cons c l ih =>
    intro a b h
    rw [List.cons_append] at h
    exact Relation.TransGen.head (List.chain'_cons.mp h).1 (ih c b (List.chain'_cons.mp h).2)

theorem dfsEdges_sound (g : Graph) (fuel : ℕ)
    (IH : ∀ id path visited stack L v' s',
      dfs fuel g id path visited stack = some (some L, v', s') →
      List.Chain' (edgeStep g.edges) (path ++ [id]) →
      (∀ y ∈ stack, y ∈ path ++ [id]) →
      (∀ y ∈ path, y ∈ visited) →
      id ∉ visited →
      (path ++ [id]).Nodup →
      IsCycleWitness g L)
    (cur : String) (path₀ : List String) :
    ∀ (es : List Edge) (visited stack : List String) (L v' s' : List String),
      dfsEdges (dfs fuel g) (path₀ ++ [cur]) es visited stack = some (some L, v', s') →
      (∀ e ∈ es, e ∈ g.edges ∧ e.source = cur) →
      List.Chain' (edgeStep g.edges) (path₀ ++ [cur]) →
      (∀ y ∈ stack, y ∈ path₀ ++ [cur]) →
      (∀ y ∈ path₀ ++ [cur], y ∈ visited) →
      (path₀ ++ [cur]).Nodup →
      IsCycleWitness g L := by
  intro es
  induction es with
  | nil =>
    intro visited stack L v' s' h
    simp only [dfsEdges, Option.some.injEq, Prod.mk.injEq] at h
    exact absurd h.1 (by simp)
  | cons e es ih =>
    intro visited stack L v' s' h hsrc hch hsp hpv hnd
    simp only [dfsEdges] at h
    by_cases hv : e.target ∈ visited
    · rw [if_pos hv] at h
      by_cases hs : e.target ∈ stack
      · rw [if_pos hs] at h
        simp only [Option.some.injEq, Prod.mk.injEq] at h
        obtain ⟨hL, -, -⟩ := h
        have htp : e.target ∈ path₀ ++ [cur] := hsp e.target hs
        obtain ⟨pre, post, hsplit, hdrop⟩ := indexOf_drop (path₀ ++ [cur]) e.target htp
        have hlast : (pre ++ e.target :: post).getLast? = some cur := by
          rw [← hsplit]; exact List.getLast?_concat path₀
        have hstep : edgeStep g.edges cur e.target :=
          ⟨e, (hsrc e (List.mem_cons_self e es)).1,
            (hsrc e (List.mem_cons_self e es)).2, rfl⟩
        refine ⟨e.target, post, ?_, ?_, ?_⟩
        · rw [← hL]
          simp only [cycleSlice, hdrop, List.cons_append]
        · rw [← hL]
          simp only [cycleSlice, hdrop]
          rw [hsplit] at hch
          exact chain_last_link pre post e.target cur hch hlast hstep
        · rw [hsplit] at hnd
          exact hnd.sublist (List.IsSuffix.sublist ⟨pre, rfl⟩)
      · rw [if_neg hs] at h
        exact ih visited stack L v' s' h (fun a ha => hsrc a (List.mem_cons_of_mem e ha))
          hch hsp hpv hnd
    · rw [if_neg hv] at h
      cases hrec : dfs fuel g e.target (path₀ ++ [cur]) visited stack with
      | none => rw [hrec] at h; cases h
      | some out =>
        obtain ⟨res₁, v₁, s₁⟩ := out
        rw [hrec] at h
        have hstep : edgeStep g.edges cur e.target :=
          ⟨e, (hsrc e (List.mem_cons_self e es)).1,
            (hsrc e (List.mem_cons_self e es)).2, rfl⟩
        cases res₁ with
        | some cyc =>
          simp only [Option.some.injEq, Prod.mk.injEq] at h
          obtain ⟨rfl, -, -⟩ := h
          have htP : e.target ∉ path₀ ++ [cur] := fun hm => hv (hpv _ hm)
          refine IH e.target (path₀ ++ [cur]) visited stack _ v₁ s₁ hrec ?_ ?_ hpv hv ?_
          · refine List.chain'_append.mpr ⟨hch, List.chain'_singleton _, ?_⟩
            intro x hx y hy
            rw [List.getLast?_concat] at hx
            simp only [Option.mem_def, Option.some.injEq] at hx
            simp only [List.head?_cons, Option.mem_def, Option.some.injEq] at hy
            subst hx; subst hy
            exact hstep
          · intro y hy
            exact List.mem_append_left _ (hsp y hy)
          · rw [List.nodup_append]
            refine ⟨hnd, List.nodup_singleton _, ?_⟩
            intro a ha hb
            simp only [List.mem_singleton] at hb
            subst hb
            exact htP ha
        | none =>
          simp only at h
          obtain ⟨hmono, hstack⟩ := dfs_basic fuel g e.target (path₀ ++ [cur])
            visited stack none v₁ s₁ hrec
          rw [hstack rfl] at h
          exact ih v₁ stack L v' s' h (fun a ha => hsrc a (List.mem_cons_of_mem e ha))
            hch hsp (fun y hy => hmono y (hpv y hy)) hnd

theorem dfs_sound : ∀ (fuel : ℕ) (g : Graph) (id : String)
    (path visited stack : List String) (L v' s' : List String),
    dfs fuel g id path visited stack = some (some L, v', s') →
    List.Chain' (edgeStep g.edges) (path ++ [id]) →
    (∀ y ∈ stack, y ∈ path ++ [id]) →
    (∀ y ∈ path, y ∈ visited) →
    id ∉ visited →
    (path ++ [id]).Nodup →
    IsCycleWitness g L := by
  intro fuel
  induction fuel with
  | zero => intro g id path visited stack L v' s' h; cases h
  | succ fuel ih =>
    intro g id path visited stack L v' s' h hch hsp hpv hid hnd
    simp only [dfs] at h
    cases hloop : dfsEdges (dfs fuel g) (path ++ [id])
        (g.edges.filter (fun e => e.source = id)) (id :: visited) (id :: stack) with
    | none => rw [hloop] at h; cases h
    | some out =>
      obtain ⟨res₁, v₁, s₁⟩ := out
      rw [hloop] at h
      cases res₁ with
      | none => simp only [Option.some.injEq, Prod.mk.injEq] at h; exact absurd h.1 (by simp)
      | some cyc =>
        simp only [Option.some.injEq, Prod.mk.injEq] at h
        obtain ⟨hL, -, -⟩ := h
        rw [← hL]
        refine dfsEdges_sound g fuel
          (fun a b c d e f k hk h1 h2 h3 h4 h5 => ih g a b c d e f k hk h1 h2 h3 h4 h5)
          id path _ (id :: visited) (id :: stack) cyc v₁ s₁ hloop ?_ hch ?_ ?_ hnd
        · intro e he
          refine ⟨(List.mem_filter.mp he).1, ?_⟩
          have := (List.mem_filter.mp he).2
          simpa using this
        · intro y hy
          rcases List.mem_cons.mp hy with hy | hy
          · subst hy
            exact List.mem_append_right _ (List.mem_singleton.mpr rfl)
          · exact hsp y hy
        · intro y hy
          rcases List.mem_append.mp hy with hy | hy
          · exact List.mem_cons_of_mem _ (hpv y hy)
          · simp only [List.mem_singleton] at hy
            subst hy
            exact List.mem_cons_self _ _

theorem detectLoop_sound (g : Graph) (fuel : ℕ) :
    ∀ (nodes : List GraphNode) (visited : List String) (L : List String),
    detectLoop g fuel nodes visited [] = some (some L) → IsCycleWitness g L := by
  intro nodes
  induction nodes with
  | nil => intro visited L h; cases h
  | cons n rest ih =>
    intro visited L h
    simp only [detectLoop] at h
    by_cases hv : n.id ∈ visited
    · rw [if_pos hv] at h
      exact ih visited L h
    · rw [if_neg hv] at h
      cases hdfs : dfs fuel g n.id [] visited [] with
      | none => rw [hdfs] at h; cases h
      | some out =>
        obtain ⟨res₁, v₁, s₁⟩ := out
        rw [hdfs] at h
        cases res₁ with
        | some cyc =>
          simp only [Option.some.injEq] at h
          rw [← h]
          refine dfs_sound fuel g n.id [] visited [] cyc v₁ s₁ hdfs ?_ ?_ ?_ hv ?_
          · exact List.chain'_singleton _
          · intro y hy; cases hy
          · intro y hy; cases hy
          · exact List.nodup_singleton _
        | none =>
          simp only at h
          obtain ⟨-, hstack⟩ := dfs_basic fuel g n.id [] visited [] none v₁ s₁ hdfs
          rw [hstack rfl] at h
          exact ih v₁ L h

/-- A list of node ids closed going forward: every edge leaving a member
points strictly later in the list.  The DFS finish order satisfies this. -/
def TopoClosed (g : Graph) : List String → Prop
  | [] => True
  | x :: d => (∀ e ∈ g.edges, e.source = x → e.target ∈ d) ∧ TopoClosed g d

theorem topoClosed_closed (g : Graph) : ∀ (d : List String), TopoClosed g d →
    ∀ x ∈ d, ∀ y, edgeStep g.edges x y → y ∈ d := by
  intro d
  induction d with
  | nil => intro _ x hx; cases hx
  | cons z d ih =>
    intro htc x hx y hstep
    obtain ⟨e, he, hsrc, htgt⟩ := hstep
    rcases List.mem_cons.mp hx with hx | hx
    · subst hx
      rw [← htgt]
      exact List.mem_cons_of_mem _ (htc.1 e he hsrc)
    · exact List.mem_cons_of_mem _ (ih htc.2 x hx y ⟨e, he, hsrc, htgt⟩)

theorem topoClosed_reach (g : Graph) (d : List String) (htc : TopoClosed g d)
    (x y : String) (hx : x ∈ d)
    (h : Relation.ReflTransGen (edgeStep g.edges) x y) : y ∈ d := by
  induction h with
  | refl => exact hx
  | tail hab hbc ih => exact topoClosed_closed g d htc _ ih _ hbc

theorem topoClosed_no_cycle (g : Graph) : ∀ (d : List String), TopoClosed g d →
    d.Nodup → ∀ x ∈ d, ¬ Relation.TransGen (edgeStep g.edges) x x := by
  intro d
  induction d with
  | nil => intro _ _ x hx; cases hx
  | cons z d ih =>
    intro htc hnd x hx hcyc
    rcases List.mem_cons.mp hx with hx | hx
    · subst hx
      obtain ⟨c, hstep, hreach⟩ := Relation.TransGen.head'_iff.mp hcyc
      have hcd : c ∈ d := by
        obtain ⟨e, he, hsrc, htgt⟩ := hstep
        rw [← htgt]
        exact htc.1 e he hsrc
      have hxd : x ∈ d := topoClosed_reach g d htc.2 c x hcd hreach
      exact (List.nodup_cons.mp hnd).1 hxd
    · exact ih htc.2 (List.nodup_cons.mp hnd).2 x hx hcyc

theorem dfsEdges_complete (g : Graph) (fuel : ℕ)
    (IH : ∀ id path visited stack v' s' done,
      dfs fuel g id path visited stack = some (none, v', s') →
      (∀ x, x ∈ done ↔ x ∈ visited ∧ x ∉ stack) →
      TopoClosed g done → done.Nodup →
      (∀ y ∈ stack, y ∈ visited) → id ∉ visited →
      ∃ dd, (∀ x, x ∈ dd ↔ x ∈ v' ∧ x ∉ s') ∧ TopoClosed g dd ∧ dd.Nodup ∧
        (∀ x ∈ done, x ∈ dd) ∧ id ∈ dd)
    (path : List String) :
    ∀ (es : List Edge) (visited stack v' s' done : List String),
      dfsEdges (dfs fuel g) path es visited stack = some (none, v', s') →
      (∀ x, x ∈ done ↔ x ∈ visited ∧ x ∉ stack) →
      TopoClosed g done → done.Nodup →
      (∀ y ∈ stack, y ∈ visited) →
      ∃ dd, (∀ x, x ∈ dd ↔ x ∈ v' ∧ x ∉ s') ∧ TopoClosed g dd ∧ dd.Nodup ∧
        (∀ x ∈ done, x ∈ dd) ∧ (∀ e ∈ es, e.target ∈ dd) := by
  intro es
  induction es with
  | nil =>
    intro visited stack v' s' done h hchar htc hnd hsv
    simp only [dfsEdges, Option.some.injEq, Prod.mk.injEq] at h
    obtain ⟨-, rfl, rfl⟩ := h
    exact ⟨done, hchar, htc, hnd, fun x hx => hx, fun e he => absurd he (by simp)⟩
  | cons e es ih =>
    intro visited stack v' s' done h hchar htc hnd hsv
    simp only [dfsEdges] at h
    by_cases hv : e.target ∈ visited
    · rw [if_pos hv] at h
      by_cases hs : e.target ∈ stack
      · rw [if_pos hs] at h
        simp only [Option.some.injEq, Prod.mk.injEq] at h
        exact absurd h.1 (by simp)
      · rw [if_neg hs] at h
        obtain ⟨dd, hc, ht, hn, hsub, hes⟩ := ih visited stack v' s' done h hchar htc hnd hsv
        refine ⟨dd, hc, ht, hn, hsub, ?_⟩
        intro a ha
        rcases List.mem_cons.mp ha with ha | ha
        · subst ha
          exact hsub _ ((hchar _).mpr ⟨hv, hs⟩)
        · exact hes a ha
    · rw [if_neg hv] at h
      cases hrec : dfs fuel g e.target path visited stack with
      | none => rw [hrec] at h; cases h
      | some out =>
        obtain ⟨res₁, v₁, s₁⟩ := out
        rw [hrec] at h
        cases res₁ with
        | some cyc => simp only [Option.some.injEq, Prod.mk.injEq] at h; exact absurd h.1 (by simp)
        | none =>
          simp only at h
          obtain ⟨hmono, hstack⟩ := dfs_basic fuel g e.target path visited stack none v₁ s₁ hrec
          have hs₁ : s₁ = stack := hstack rfl
          obtain ⟨dd₁, hc₁, ht₁, hn₁, hsub₁, hid₁⟩ :=
            IH e.target path visited stack v₁ s₁ done hrec hchar htc hnd hsv hv
          rw [hs₁] at h hc₁
          obtain ⟨dd, hc, ht, hn, hsub, hes⟩ := ih v₁ stack v' s' dd₁ h hc₁ ht₁ hn₁
            (fun y hy => hmono y (hsv y hy))
          refine ⟨dd, hc, ht, hn, fun x hx => hsub x (hsub₁ x hx), ?_⟩
          intro a ha
          rcases List.mem_cons.mp ha with ha | ha
          · subst ha
            exact hsub _ hid₁
          · exact hes a ha

theorem dfs_complete : ∀ (fuel : ℕ) (g : Graph) (id : String)
    (path visited stack v' s' done : List String),
    dfs fuel g id path visited stack = some (none, v', s') →
    (∀ x, x ∈ done ↔ x ∈ visited ∧ x ∉ stack) →
    TopoClosed g done → done.Nodup →
    (∀ y ∈ stack, y ∈ visited) → id ∉ visited →
    ∃ dd, (∀ x, x ∈ dd ↔ x ∈ v' ∧ x ∉ s') ∧ TopoClosed g dd ∧ dd.Nodup ∧
      (∀ x ∈ done, x ∈ dd) ∧ id ∈ dd := by
  intro fuel
  induction fuel with
  | zero => intro g id path visited stack v' s' done h; cases h
  | succ fuel ih =>
    intro g id path visited stack v' s' done h hchar htc hnd hsv hid
    have hids : id ∉ stack := fun hm => hid (hsv id hm)
    simp only [dfs] at h
    cases hloop : dfsEdges (dfs fuel g) (path ++ [id])
        (g.edges.filter (fun e => e.source = id)) (id :: visited) (id :: stack) with
    | none => rw [hloop] at h; cases h
    | some out =>
      obtain ⟨res₁, v₁, s₁⟩ := out
      rw [hloop] at h
      cases res₁ with
      | some cyc => simp only [Option.some.injEq, Prod.mk.injEq] at h; exact absurd h.1 (by simp)
      | none =>
        simp only [Option.some.injEq, Prod.mk.injEq] at h
        obtain ⟨-, rfl, rfl⟩ := h
        obtain ⟨hmono, hstack⟩ := dfsEdges_basic (dfs fuel g)
          (fun a b c d e f k hk => dfs_basic fuel g a b c d e f k hk)
          (path ++ [id]) _ _ _ _ _ _ hloop
        have hs₁ : s₁ = id :: stack := hstack rfl
        subst hs₁
        rw [List.erase_cons_head]
        have hchar₁ : ∀ x, x ∈ done ↔ x ∈ id :: visited ∧ x ∉ id :: stack := by
          intro x
          rw [hchar x]
          constructor
          · rintro ⟨hxv, hxs⟩
            refine ⟨List.mem_cons_of_mem _ hxv, ?_⟩
            intro hm
            rcases List.mem_cons.mp hm with hm | hm
            · subst hm; exact hid hxv
            · exact hxs hm
          · rintro ⟨hxv, hxs⟩
            have hxne : x ≠ id := fun hxe => hxs (hxe ▸ List.mem_cons_self _ _)
            rcases List.mem_cons.mp hxv with hm | hm
            · exact absurd hm hxne
            · exact ⟨hm, fun hc => hxs (List.mem_cons_of_mem _ hc)⟩
        have hsv₁ : ∀ y ∈ id :: stack, y ∈ id :: visited := by
          intro y hy
          rcases List.mem_cons.mp hy with hy | hy
          · subst hy; exact List.mem_cons_self _ _
          · exact List.mem_cons_of_mem _ (hsv y hy)
        obtain ⟨dd₁, hc₁, ht₁, hn₁, hsub₁, hes₁⟩ := dfsEdges_complete g fuel
          (fun a b c d e f k h1 h2 h3 h4 h5 h6 => ih g a b c d e f k h1 h2 h3 h4 h5 h6)
          (path ++ [id]) _ _ _ _ _ done hloop hchar₁ htc hnd hsv₁
        have hidv₁ : id ∈ v₁ := hmono id (List.mem_cons_self _ _)
        have hidd₁ : id ∉ dd₁ := fun hm =>
          ((hc₁ id).mp hm).2 (List.mem_cons_self _ _)
        refine ⟨id :: dd₁, ?_, ?_, List.nodup_cons.mpr ⟨hidd₁, hn₁⟩,
          fun x hx => List.mem_cons_of_mem _ (hsub₁ x hx), List.mem_cons_self _ _⟩
        · intro x
          constructor
          · intro hm
            rcases List.mem_cons.mp hm with hm | hm
            · subst hm
              exact ⟨hidv₁, hids⟩
            · obtain ⟨hxv, hxs⟩ := (hc₁ x).mp hm
              exact ⟨hxv, fun hc => hxs (List.mem_cons_of_mem _ hc)⟩
          · rintro ⟨hxv, hxs⟩
            by_cases hxe : x = id
            · subst hxe; exact List.mem_cons_self _ _
            · refine List.mem_cons_of_mem _ ((hc₁ x).mpr ⟨hxv, ?_⟩)
              intro hm
              rcases List.mem_cons.mp hm with hm | hm
              · exact hxe hm
              · exact hxs hm
        · refine ⟨?_, ht₁⟩
          intro e he hsrc
          refine hes₁ e ?_
          rw [List.mem_filter]
          exact ⟨he, by simp [hsrc]⟩

theorem detectLoop_complete (g : Graph) (fuel : ℕ) :
    ∀ (nodes : List GraphNode) (visited done : List String),
    detectLoop g fuel nodes visited [] = some none →
    (∀ x, x ∈ done ↔ x ∈ visited) →
    TopoClosed g done → done.Nodup →
    ∃ D, (∀ x ∈ visited, x ∈ D) ∧ (∀ n ∈ nodes, n.id ∈ D) ∧
      TopoClosed g D ∧ D.Nodup := by
  intro nodes
  induction nodes with
  | nil =>
    intro visited done h hchar htc hnd
    exact ⟨done, fun x hx => (hchar x).mpr hx, fun n hn => absurd hn (by simp), htc, hnd⟩
  | cons n rest ih =>
    intro visited done h hchar htc hnd
    simp only [detectLoop] at h
    by_cases hv : n.id ∈ visited
    · rw [if_pos hv] at h
      obtain ⟨D, hD, hrest, htD, hnD⟩ := ih visited done h hchar htc hnd
      exact ⟨D, hD, fun m hm => by
        rcases List.mem_cons.mp hm with hm | hm
        · subst hm; exact hD _ hv
        · exact hrest m hm, htD, hnD⟩
    · rw [if_neg hv] at h
      cases hdfs : dfs fuel g n.id [] visited [] with
      | none => rw [hdfs] at h; cases h
      | some out =>
        obtain ⟨res₁, v₁, s₁⟩ := out
        rw [hdfs] at h
        cases res₁ with
        | some cyc => simp only at h; cases h
        | none =>
          simp only at h
          obtain ⟨-, hstack⟩ := dfs_basic fuel g n.id [] visited [] none v₁ s₁ hdfs
          have hs₁ : s₁ = [] := hstack rfl
          subst hs₁
          have hchar₀ : ∀ x, x ∈ done ↔ x ∈ visited ∧ x ∉ ([] : List String) := by
            intro x
            rw [hchar x]
            simp
          obtain ⟨dd₁, hc₁, ht₁, hn₁, hsub₁, hid₁⟩ := dfs_complete fuel g n.id [] visited []
            v₁ [] done hdfs hchar₀ htc hnd (fun y hy => absurd hy (by simp)) hv
          have hchar₁ : ∀ x, x ∈ dd₁ ↔ x ∈ v₁ := by
            intro x
            rw [hc₁ x]
            simp
          obtain ⟨D, hD, hrest, htD, hnD⟩ := ih v₁ dd₁ h hchar₁ ht₁ hn₁
          refine ⟨D, fun x hx => hD x ((hchar₁ _).mp (hsub₁ x ((hchar₀ x).mpr ⟨hx, by simp⟩))),
            fun m hm => ?_, htD, hnD⟩
          rcases List.mem_cons.mp hm with hm | hm
          · subst hm
            exact hD _ ((hchar₁ _).mp hid₁)
          · exact hrest m hm

/-- The finite set bounding the depth of the DFS recursion: every recursive
call enters at an edge target not yet visited. -/
def targetSet (g : Graph) : Finset String := (g.edges.map Edge.target).toFinset

theorem dfsEdges_total (g : Graph) (fuel : ℕ)
    (IH : ∀ id path visited stack,
      (targetSet g \ insert id visited.toFinset).card < fuel →
      dfs fuel g id path visited stack ≠ none)
    (path : List String) :
    ∀ (es : List Edge) (visited stack : List String),
      (∀ e ∈ es, e ∈ g.edges) →
      (targetSet g \ visited.toFinset).card ≤ fuel →
      dfsEdges (dfs fuel g) path es visited stack ≠ none := by
  intro es
  induction es with
  | nil => intro visited stack _ _ h; cases h
  | cons e es ih =>
    intro visited stack hes hcard h
    simp only [dfsEdges] at h
    by_cases hv : e.target ∈ visited
    · rw [if_pos hv] at h
      by_cases hs : e.target ∈ stack
      · rw [if_pos hs] at h; cases h
      · rw [if_neg hs] at h
        exact ih visited stack (fun a ha => hes a (List.mem_cons_of_mem e ha)) hcard h
    · rw [if_neg hv] at h
      have hmem : e.target ∈ targetSet g \ visited.toFinset := by
        rw [Finset.mem_sdiff]
        refine ⟨List.mem_toFinset.mpr ?_, fun hc => hv (List.mem_toFinset.mp hc)⟩
        exact List.mem_map.mpr ⟨e, hes e (List.mem_cons_self e es), rfl⟩
      have hcard₁ : (targetSet g \ insert e.target visited.toFinset).card < fuel := by
        have hsub : targetSet g \ insert e.target visited.toFinset ⊆
            (targetSet g \ visited.toFinset).erase e.target := by
          intro x hx
          rw [Finset.mem_sdiff, Finset.mem_insert] at hx
          rw [Finset.mem_erase, Finset.mem_sdiff]
          push_neg at hx
          exact ⟨hx.2.1, hx.1, hx.2.2⟩
        calc (targetSet g \ insert e.target visited.toFinset).card
            ≤ ((targetSet g \ visited.toFinset).erase e.target).card :=
              Finset.card_le_card hsub
          _ < (targetSet g \ visited.toFinset).card :=
              Finset.card_erase_lt_of_mem hmem
          _ ≤ fuel := hcard
      cases hrec : dfs fuel g e.target path visited stack with
      | none => exact IH e.target path visited stack hcard₁ hrec
      | some out =>
        obtain ⟨res₁, v₁, s₁⟩ := out
        rw [hrec] at h
        cases res₁ with
        | some cyc => cases h
        | none =>
          simp only at h
          obtain ⟨hmono, -⟩ := dfs_basic fuel g e.target path visited stack none v₁ s₁ hrec
          have hsubv : targetSet g \ v₁.toFinset ⊆ targetSet g \ visited.toFinset := by
            intro x hx
            rw [Finset.mem_sdiff] at hx ⊢
            refine ⟨hx.1, fun hc => hx.2 ?_⟩
            exact List.mem_toFinset.mpr (hmono x (List.mem_toFinset.mp hc))
          exact ih v₁ s₁ (fun a ha => hes a (List.mem_cons_of_mem e ha))
            (le_trans (Finset.card_le_card hsubv) hcard) h

theorem dfs_total : ∀ (fuel : ℕ) (g : Graph) (id : String) (path visited stack : List String),
    (targetSet g \ insert id visited.toFinset).card < fuel →
    dfs fuel g id path visited stack ≠ none := by
  intro fuel
  induction fuel with
  | zero => intro g id path visited stack hcard; exact absurd hcard (Nat.not_lt_zero _)
  | succ fuel ih =>
    intro g id path visited stack hcard h
    simp only [dfs] at h
    have hcard₁ : (targetSet g \ (id :: visited).toFinset).card ≤ fuel := by
      rw [List.toFinset_cons]
      exact Nat.lt_succ_iff.mp hcard
    have hloop := dfsEdges_total g fuel (fun a b c d hc => ih g a b c d hc) (path ++ [id])
      (g.edges.filter (fun e => e.source = id)) (id :: visited) (id :: stack)
      (fun e he => (List.mem_filter.mp he).1) hcard₁
    cases hl : dfsEdges (dfs fuel g) (path ++ [id])
        (g.edges.filter (fun e => e.source = id)) (id :: visited) (id :: stack) with
    | none => exact hloop hl
    | some out =>
      obtain ⟨res₁, v₁, s₁⟩ := out
      rw [hl] at h
      cases res₁ with
      | some cyc => cases h
      | none => cases h

theorem detectLoop_total (g : Graph) :
    ∀ (nodes : List GraphNode) (visited stack : List String),
    detectLoop g (dfsFuel g) nodes visited stack ≠ none := by
  intro nodes
  induction nodes with
  | nil => intro visited stack h; cases h
  | cons n rest ih =>
    intro visited stack h
    simp only [detectLoop] at h
    by_cases hv : n.id ∈ visited
    · rw [if_pos hv] at h
      exact ih visited stack h
    · rw [if_neg hv] at h
      have hcard : (targetSet g \ insert n.id visited.toFinset).card < dfsFuel g := by
        have h₁ : (targetSet g \ insert n.id visited.toFinset).card ≤ (targetSet g).card :=
          Finset.card_le_card (Finset.sdiff_subset)
        have h₂ : (targetSet g).card ≤ g.edges.length := by
          calc (targetSet g).card ≤ (g.edges.map Edge.target).length :=
                (g.edges.map Edge.target).toFinset_card_le
            _ = g.edges.length := List.length_map _ _
        exact Nat.lt_succ_of_le (le_trans h₁ h₂)
      cases hdfs : dfs (dfsFuel g) g n.id [] visited stack with
      | none => exact dfs_total (dfsFuel g) g n.id [] visited stack hcard hdfs
      | some out =>
        obtain ⟨res₁, v₁, s₁⟩ := out
        rw [hdfs] at h
        cases res₁ with
        | some cyc => cases h
        | none => exact ih v₁ s₁ h

/-- A graph with a dangling self-loop edge: its source "A" is not among the
graph's nodes, so the DFS (which roots only at nodes) never sees the cycle. -/
def danglingGraph : Graph :=
  { nodes := [], edges := [{ source := "A", target := "A", targetHandle := none }] }

/-- C9 counterexample: as frozen the claim quantifies over every graph, but on
a graph whose only edge is a dangling self-loop (its source is not a node)
`detectCycles` returns `null` even though the edge relation has a cycle: the
DFS roots only at `graph.nodes`. -/
theorem detectCycles_counterexample :
    detectCycles danglingGraph = some none ∧
    Relation.TransGen (edgeStep danglingGraph.edges) "A" "A" := by
  constructor
  · rfl
  · exact Relation.TransGen.single ⟨_, List.mem_singleton.mpr rfl, rfl, rfl⟩

/-- C9: for every graph in which each edge originates at a graph node,
`detectCycles` (run with sufficient fuel, which `dfsFuel` always is) never runs
out of fuel, returns `null` exactly when the edge relation is acyclic, and any
returned list is a genuine minimal cycle witness: it starts and ends at the
node that was found on the recursion stack, follows edges, and repeats no
other node. -/
theorem detectCycles_claim (g : Graph)
    (hwf : ∀ e ∈ g.edges, ∃ n ∈ g.nodes, n.id = e.source) :
    detectCycles g ≠ none ∧
    (detectCycles g = some none ↔ ∀ x, ¬ Relation.TransGen (edgeStep g.edges) x x) ∧
    (∀ L, detectCycles g = some (some L) → IsCycleWitness g L) := by
  have htotal : detectCycles g ≠ none := detectLoop_total g g.nodes [] []
  have hsound : ∀ L, detectCycles g = some (some L) → IsCycleWitness g L :=
    fun L h => detectLoop_sound g (dfsFuel g) g.nodes [] L h
  refine ⟨htotal, ⟨?_, ?_⟩, hsound⟩
  · intro h x hcyc
    obtain ⟨D, -, hrest, htD, hnD⟩ := detectLoop_complete g (dfsFuel g) g.nodes [] [] h
      (fun x => Iff.rfl) trivial List.nodup_nil
    obtain ⟨c, hstep, -⟩ := Relation.TransGen.head'_iff.mp hcyc
    obtain ⟨e, he, hsrc, -⟩ := hstep
    obtain ⟨n, hn, hnid⟩ := hwf e he
    have hxD : x ∈ D := by rw [← hsrc, ← hnid]; exact hrest n hn
    exact topoClosed_no_cycle g D htD hnD x hxD hcyc
  · intro hacyc
    cases hdc : detectCycles g with
    | none => exact absurd hdc htotal
    | some res =>
      cases res with
      | none => rfl
      | some L =>
        obtain ⟨t, post, hL, hch, -⟩ := hsound L hdc
        rw [hL] at hch
        exact absurd (chain_transGen post t t hch) (hacyc t)

/-- The two-node cycle A→B→A. -/
def witnessGraphCycle : Graph :=
  { nodes := [⟨"A", .patternSource { notes := [], duration := none }⟩,
              ⟨"B", .patternSource { notes := [], duration := none }⟩],
    edges := [⟨"A", "B", none⟩, ⟨"B", "A", none⟩] }

/-- The acyclic two-node graph A→B. -/
def witnessGraphAcyclic : Graph :=
  { nodes := [⟨"A", .patternSource { notes := [], duration := none }⟩,
              ⟨"B", .patternSource { notes := [], duration := none }⟩],
    edges := [⟨"A", "B", none⟩] }

/-- C9 witness: on A→B→A `detectCycles` returns the witness ["A", "B", "A"]
containing both A and B, and it is a genuine cycle; on the acyclic A→B it
returns `null` and the claim theorem yields acyclicity. -/
theorem detectCycles_claim_witness :
    ((detectCycles witnessGraphCycle = some (some ["A", "B", "A"]) ∧
        "A" ∈ ["A", "B", "A"] ∧ "B" ∈ (["A", "B", "A"] : List String)) ∧
      IsCycleWitness witnessGraphCycle ["A", "B", "A"]) ∧
    (detectCycles witnessGraphAcyclic = some none ∧
      ∀ x, ¬ Relation.TransGen (edgeStep witnessGraphAcyclic.edges) x x) :=
  ⟨⟨⟨by decide, by decide, by decide⟩,
    (detectCycles_claim witnessGraphCycle (by decide)).2.2 ["A", "B", "A"] (by decide)⟩,
   ⟨by decide,
    (detectCycles_claim witnessGraphAcyclic (by decide)).2.1.mp (by decide)⟩⟩

end MidiFlow



